import Mathlib

/-!
# Colocation resolution of overlay turns

A shallow embedding of
`include/boost/geometry/algorithms/detail/overlay/handle_colocations.hpp`
(`turn_operation_index`, `less_by_fraction_and_type`, `handle_colocations`)
together with proofs about it.

Conventions of the embedding.

* The turn range `TurnPoints` is a `List`; the in-place mutation of
  `turn_points` is explicit state passing.
* Fractions are values of a type `F` with a linear order (the source uses
  `==` and `<` of the fraction type).
* `turn_index` and `op_index` are natural numbers: the function only ever
  stores `index = 0, 1, 2, ...` and the slots `0` and `1`.
* An element access `turn_points[i]` is `turn_points[i]?`; outside the range
  (which the source never reaches) the embedding leaves the state as it is.
  The functions are repeated with every access checked (`none` outside the
  range), and the two versions are proved to agree.
* `std::map` is an association list with pairwise different keys kept in
  ascending key order; `std::sort` is a sort by insertion with the comparator,
  which keeps entries the comparator does not order in their order of
  insertion.
* The diagnostic output under `BOOST_GEOMETRY_DEBUG_HANDLE_COLOCATIONS` writes
  no state and is left out.
-/

namespace overlay

/-! ## Data model -/

/-- Modelled from the spec: the operation kind enumeration
`{union, intersection, continue, blocked, …}` of the header `overlay_type.hpp`,
which is not among the sources. The code under study only tests for
`operation_union` and `operation_continue`. -/
inductive operation_type where
  | operation_none
  | operation_union
  | operation_intersection
  | operation_blocked
  | operation_continue
  | operation_opposite
  deriving DecidableEq, Repr

/-- Modelled from the spec: the segment identifier of `segment_identifier.hpp`,
which is not among the sources: geometry part index (`multi_index`), ring index
(`ring_index`, `-1` for the exterior ring) and the position of the segment in
its ring (`segment_index`). -/
structure segment_identifier where
  multi_index : Int
  ring_index : Int
  segment_index : Int
  deriving DecidableEq, Repr

/-- Modelled from the spec: the structural comparison of segment identifiers
that orders the keys of the map (part, then ring, then segment position). -/
def segment_identifier.less (a b : segment_identifier) : Bool :=
  if a.multi_index ≠ b.multi_index then decide (a.multi_index < b.multi_index)
  else if a.ring_index ≠ b.ring_index then decide (a.ring_index < b.ring_index)
  else decide (a.segment_index < b.segment_index)

/-- Modelled from the spec: one side of a turn (`turn_operation` of
`turn_info.hpp`, which is not among the sources): its kind, the segment it lies
on and the fraction along that segment. -/
structure turn_operation (F : Type) where
  operation : operation_type
  seg_id : segment_identifier
  fraction : F
  deriving DecidableEq, Repr

/-- Modelled from the spec: a turn (`turn_info` of `turn_info.hpp`, which is
not among the sources): exactly two operations and the flags `discarded` and
`colocated`. -/
structure turn_info (F : Type) where
  op0 : turn_operation F
  op1 : turn_operation F
  discarded : Bool
  colocated : Bool
  deriving DecidableEq, Repr

/-- The array access `turn.operations[k]` on the two slots. -/
def turn_info.operations {F : Type} (t : turn_info F) (k : Nat) : turn_operation F :=
  if k = 0 then t.op0 else t.op1

/-- Modelled from the spec: `turn.both(kind)`, the helper testing both
operation slots for one kind. -/
def turn_info.both {F : Type} (t : turn_info F) (kind : operation_type) : Bool :=
  decide (t.op0.operation = kind) && decide (t.op1.operation = kind)

/-- The struct `turn_operation_index`: a turn index and an operation slot. -/
structure turn_operation_index where
  turn_index : Nat
  op_index : Nat
  deriving DecidableEq, Repr

/-! ## The comparator -/

section
variable {F : Type} [LinearOrder F]

/-- The comparator `less_by_fraction_and_type::operator()`. -/
def less_by_fraction_and_type (m_turns : List (turn_info F))
    (left right : turn_operation_index) : Bool :=
  match m_turns[left.turn_index]?, m_turns[right.turn_index]? with
  | some left_turn, some right_turn =>
    let left_op := left_turn.operations left.op_index
    let right_op := right_turn.operations right.op_index
    if ¬ (left_op.fraction = right_op.fraction) then
      decide (left_op.fraction < right_op.fraction)
    else
      let left_code : Nat := if left_turn.both operation_type.operation_union then 0 else 1
      let right_code : Nat := if right_turn.both operation_type.operation_union then 0 else 1
      if left_code ≠ right_code then decide (left_code < right_code)
      else decide (left.turn_index < right.turn_index)
  | _, _ => false

/-! ## The segment map -/

/-- The type `map_type`: segment identifier to vector of operation indices. -/
abbrev map_type := List (segment_identifier × List turn_operation_index)

/-- Insertion of a fresh key at its place in ascending key order. -/
def map_insert (k : segment_identifier) (v : List turn_operation_index) :
    map_type → map_type
  | [] => [(k, v)]
  | it :: rest =>
    if k.less it.1 then (k, v) :: it :: rest else it :: map_insert k v rest

/-- The statement `map[k].push_back(v)`: `operator[]` finds the key or inserts
it with an empty vector, then the entry is appended to that vector. -/
def map_push_back (m : map_type) (k : segment_identifier) (v : turn_operation_index) :
    map_type :=
  if m.any (fun it => decide (it.1 = k)) then
    m.map (fun it => if it.1 = k then (it.1, it.2 ++ [v]) else it)
  else map_insert k [v] m

/-- The first loop of `handle_colocations`, from turn number `index` on. -/
def fill_map : Nat → List (turn_info F) → map_type → map_type
  | _, [], m => m
  | index, it :: rest, m =>
    fill_map (index + 1) rest
      (map_push_back
        (map_push_back m (it.operations 0).seg_id ⟨index, 0⟩)
        (it.operations 1).seg_id ⟨index, 1⟩)

/-- The check for a vector with more than one entry. -/
def has_colocations (m : map_type) : Bool :=
  m.any (fun it => decide (it.2.length > 1))

/-! ## Sorting -/

/-- Insertion of one element into a sorted vector, after the elements that are
less than it and before the first that is not. -/
def sort_insert {α : Type} (less : α → α → Bool) (a : α) : List α → List α
  | [] => [a]
  | b :: l => if less b a then b :: sort_insert less a l else a :: b :: l

/-- The call `std::sort(first, last, less)`. -/
def std_sort {α : Type} (less : α → α → Bool) : List α → List α
  | [] => []
  | a :: l => sort_insert less a (std_sort less l)

/-! ## The sweep -/

/-- The three locals `cluster_turn`, `cluster_op`, `cluster_other_id`. -/
structure cluster (F : Type) where
  cluster_turn : turn_info F
  cluster_op : turn_operation F
  cluster_other_id : segment_identifier

/-- The test that decides `turn.discarded = true`. -/
def discard_test (cluster_other_id other_id : segment_identifier) : Bool :=
  decide (cluster_other_id.multi_index = other_id.multi_index)
    && decide (cluster_other_id.ring_index = -1)
    && decide (other_id.ring_index ≥ 0)

/-- One iteration of the inner loop, for the entry `toi`. -/
def sweep_step (st : List (turn_info F) × cluster F) (toi : turn_operation_index) :
    List (turn_info F) × cluster F :=
  match st.1[toi.turn_index]? with
  | none => st
  | some turn =>
    let op := turn.operations toi.op_index
    let other_id := (turn.operations (1 - toi.op_index)).seg_id
    if st.2.cluster_op.fraction = op.fraction then
      if st.2.cluster_turn.both operation_type.operation_union
          && !turn.both operation_type.operation_union
          && !turn.both operation_type.operation_continue then
        let turn1 := { turn with colocated := true }
        let turn2 :=
          if discard_test st.2.cluster_other_id other_id then
            { turn1 with discarded := true }
          else turn1
        (st.1.set toi.turn_index turn2, st.2)
      else st
    else (st.1, ⟨turn, op, other_id⟩)

/-- The body of the last loop for one vector of the map. -/
def sweep_bucket (turn_points : List (turn_info F)) :
    List turn_operation_index → List (turn_info F)
  | [] => turn_points
  | [_] => turn_points
  | vit :: rest =>
    match turn_points[vit.turn_index]? with
    | none => turn_points
    | some cluster_turn =>
      (rest.foldl sweep_step
        (turn_points,
          ⟨cluster_turn, cluster_turn.operations vit.op_index,
            (cluster_turn.operations (1 - vit.op_index)).seg_id⟩)).1

/-- The map after the loop that sorts every vector. -/
def sort_map (turn_points : List (turn_info F)) (m : map_type) : map_type :=
  m.map (fun it => (it.1, std_sort (less_by_fraction_and_type turn_points) it.2))

/-- The function `handle_colocations`. -/
def handle_colocations (turn_points : List (turn_info F)) : List (turn_info F) :=
  let map := fill_map 0 turn_points []
  if !has_colocations map then turn_points
  else
    (sort_map turn_points map).foldl (fun tp it => sweep_bucket tp it.2) turn_points


/-! ## Auxiliary definitions for the proofs

The sweep reads of a turn only its two operations, never its flags. The
definitions below separate what the sweep decides (a list of flag updates,
computed from the operations alone) from the writing of the flags. -/

/-- The two operations of a turn, the part that `handle_colocations` only reads. -/
def turn_key (t : turn_info F) : turn_operation F × turn_operation F := (t.op0, t.op1)

/-- What the sweep reads of the cluster locals: whether the cluster turn is
both-union, the fraction of the cluster operation, and the other segment. -/
structure anchor (F : Type) where
  uu : Bool
  fraction : F
  other_id : segment_identifier

/-- The anchor given by slot `k` of turn `t`. -/
def anchor_of (t : turn_info F) (k : Nat) : anchor F :=
  ⟨t.both operation_type.operation_union, (t.operations k).fraction,
    (t.operations (1 - k)).seg_id⟩

/-- The anchor held in the cluster locals. -/
def cluster.view (c : cluster F) : anchor F :=
  ⟨c.cluster_turn.both operation_type.operation_union, c.cluster_op.fraction,
    c.cluster_other_id⟩

/-- The flag update of the sweep: `colocated = true`, and `discarded = true`
when `d` holds. -/
def mark (d : Bool) (t : turn_info F) : turn_info F :=
  { t with colocated := true, discarded := d || t.discarded }

/-- One flag update `(turn index, discard)` written to the turn list. -/
def apply_event (tp : List (turn_info F)) (e : Nat × Bool) : List (turn_info F) :=
  match tp[e.1]? with
  | none => tp
  | some t => tp.set e.1 (mark e.2 t)

/-- A list of flag updates written to the turn list, in order. -/
def apply_events (tp : List (turn_info F)) (evs : List (Nat × Bool)) : List (turn_info F) :=
  evs.foldl apply_event tp

/-- The flag updates the inner loop makes on the entries `l`, starting with the
cluster `a`. -/
def sweep_events (ts : List (turn_info F)) : anchor F → List turn_operation_index →
    List (Nat × Bool)
  | _, [] => []
  | a, toi :: rest =>
    match ts[toi.turn_index]? with
    | none => sweep_events ts a rest
    | some turn =>
      if a.fraction = (turn.operations toi.op_index).fraction then
        if a.uu && !turn.both operation_type.operation_union
            && !turn.both operation_type.operation_continue then
          (toi.turn_index,
            discard_test a.other_id (turn.operations (1 - toi.op_index)).seg_id)
            :: sweep_events ts a rest
        else sweep_events ts a rest
      else sweep_events ts (anchor_of turn toi.op_index) rest

/-- The flag updates of the sweep of one vector. -/
def bucket_events (ts : List (turn_info F)) : List turn_operation_index → List (Nat × Bool)
  | [] => []
  | vit :: rest =>
    match ts[vit.turn_index]? with
    | none => []
    | some cluster_turn => sweep_events ts (anchor_of cluster_turn vit.op_index) rest

/-- The flag updates of the sweep of a whole map. -/
def map_events (ts : List (turn_info F)) (m : map_type) : List (Nat × Bool) :=
  m.flatMap (fun it => bucket_events ts it.2)

/-- All flag updates of `handle_colocations` past the early return. -/
def all_events (ts : List (turn_info F)) : List (Nat × Bool) :=
  map_events ts (sort_map ts (fill_map 0 ts []))

/-- The entries of a map as pairs of key and operation index. -/
def map_entries (m : map_type) : List (segment_identifier × turn_operation_index) :=
  m.flatMap (fun it => it.2.map (fun v => (it.1, v)))

/-- The entries the first loop pushes, in the order it pushes them. -/
def pushed_entries : Nat → List (turn_info F) →
    List (segment_identifier × turn_operation_index)
  | _, [] => []
  | index, it :: rest =>
    ((it.operations 0).seg_id, ⟨index, 0⟩) :: ((it.operations 1).seg_id, ⟨index, 1⟩)
      :: pushed_entries (index + 1) rest

/-- The segment identifiers of all operations, two per turn. -/
def all_seg_ids (ts : List (turn_info F)) : List segment_identifier :=
  ts.flatMap (fun t => [(t.operations 0).seg_id, (t.operations 1).seg_id])

/-- The entry `e` names an operation of the turn list that lies on segment `s`. -/
def entry_on (ts : List (turn_info F)) (s : segment_identifier) (e : turn_operation_index) :
    Prop :=
  ∃ t, ts[e.turn_index]? = some t ∧ e.op_index < 2 ∧ (t.operations e.op_index).seg_id = s

/-- A valid operation index: the turn index is in range and the slot is 0 or 1. -/
def valid_index (ts : List (turn_info F)) (a : turn_operation_index) : Prop :=
  a.turn_index < ts.length ∧ a.op_index < 2

/-- Slot `j` of turn `u` and slot `k` of turn `t` lie on the same segment
identifier with equal fractions. -/
def shares_location (u t : turn_info F) (j k : Nat) : Prop :=
  j < 2 ∧ k < 2 ∧ (u.operations j).seg_id = (t.operations k).seg_id
    ∧ (u.operations j).fraction = (t.operations k).fraction

/-- The turn `t` is neither both-union nor both-continue and some both-union
turn of the list shares a location with it. -/
def colocation_fires (ts : List (turn_info F)) (t : turn_info F) : Prop :=
  t.both operation_type.operation_union = false
    ∧ t.both operation_type.operation_continue = false
    ∧ ∃ u ∈ ts, u.both operation_type.operation_union = true
      ∧ ∃ j k, shares_location u t j k

/-- As `colocation_fires`, and the paired segments of the two turns pass the
discard test. -/
def discard_fires (ts : List (turn_info F)) (t : turn_info F) : Prop :=
  t.both operation_type.operation_union = false
    ∧ t.both operation_type.operation_continue = false
    ∧ ∃ u ∈ ts, u.both operation_type.operation_union = true
      ∧ ∃ j k, shares_location u t j k
        ∧ discard_test (u.operations (1 - j)).seg_id (t.operations (1 - k)).seg_id = true

/-- At slot `k` of turn `t` some both-union turn of the list shares the
location, and every both-union turn of the list that shares it passes the
discard test against the paired segment of `t`. -/
def anchors_all_discard (ts : List (turn_info F)) (t : turn_info F) (k : Nat) : Prop :=
  (∃ u ∈ ts, u.both operation_type.operation_union = true ∧ ∃ j, shares_location u t j k)
    ∧ ∀ u ∈ ts, u.both operation_type.operation_union = true →
      ∀ j, shares_location u t j k →
        discard_test (u.operations (1 - j)).seg_id (t.operations (1 - k)).seg_id = true

/-- Any two both-union turns that share a location have their paired
operations on segments of the same `multi_index` that are both on ring `-1` or
both not: the two things the discard test reads of the cluster. -/
def anchors_agree (ts : List (turn_info F)) : Prop :=
  ∀ u ∈ ts, ∀ v ∈ ts, u.both operation_type.operation_union = true →
    v.both operation_type.operation_union = true →
    ∀ j k, shares_location u v j k →
      (u.operations (1 - j)).seg_id.multi_index = (v.operations (1 - k)).seg_id.multi_index
        ∧ ((u.operations (1 - j)).seg_id.ring_index = -1
          ↔ (v.operations (1 - k)).seg_id.ring_index = -1)

/-- The entry `x` of the turn list gives the anchor `a`. -/
def is_anchor (ts : List (turn_info F)) (x : turn_operation_index) (a : anchor F) : Prop :=
  ∃ tx, ts[x.turn_index]? = some tx ∧ a = anchor_of tx x.op_index

/-- The sweep, holding the cluster `a`, flags the turn of the entry `y`, and
`e` is the flag update it makes. -/
def fires_on (ts : List (turn_info F)) (a : anchor F) (y : turn_operation_index)
    (e : Nat × Bool) : Prop :=
  ∃ ty, ts[y.turn_index]? = some ty
    ∧ e = (y.turn_index, discard_test a.other_id (ty.operations (1 - y.op_index)).seg_id)
    ∧ a.uu = true
    ∧ ty.both operation_type.operation_union = false
    ∧ ty.both operation_type.operation_continue = false
    ∧ a.fraction = (ty.operations y.op_index).fraction

/-- The order of the sorted vector as far as the sweep depends on it: fractions
ascend, and at equal fractions a both-union turn is not after another turn. -/
def anchor_le (a b : anchor F) : Prop :=
  a.fraction ≤ b.fraction ∧ (a.fraction = b.fraction → b.uu = true → a.uu = true)

/-- The rank 0 or 1 the comparator gives a turn: 0 for a both-union turn. -/
def type_code (t : turn_info F) : Nat :=
  if t.both operation_type.operation_union then 0 else 1

/-- The key the comparator orders by: fraction, then rank, then turn index. -/
def sort_rank (t : turn_info F) (e : turn_operation_index) : Lex (F × Lex (Nat × Nat)) :=
  toLex ((t.operations e.op_index).fraction, toLex (type_code t, e.turn_index))

/-- The turn `t` of index `i` after the flag updates `evs`. -/
def flag_result (evs : List (Nat × Bool)) (i : Nat) (t : turn_info F) : turn_info F :=
  { t with
    colocated := t.colocated || evs.any (fun e => decide (e.1 = i)),
    discarded := t.discarded || evs.any (fun e => decide (e.1 = i) && e.2) }

end

/-- What the first loop keeps true of every vector while it pushes the entries
of turn `n`: it is not empty, its turn indices ascend and are at most `n`. -/
def bucket_inv (n : Nat) (it : segment_identifier × List turn_operation_index) : Prop :=
  it.2 ≠ [] ∧ it.2.Pairwise (fun a b => a.turn_index ≤ b.turn_index)
    ∧ ∀ e ∈ it.2, e.turn_index ≤ n

/-! ## The variant without the early return -/

section
variable {F : Type} [LinearOrder F]

/-- The variant of `handle_colocations` without the early return: it always
sorts every vector and sweeps every vector with more than one entry. -/
def handle_colocations_without_fast_path (turn_points : List (turn_info F)) :
    List (turn_info F) :=
  (sort_map turn_points (fill_map 0 turn_points [])).foldl
    (fun tp it => sweep_bucket tp it.2) turn_points

end

/-! ## Checked element access

The same functions with every element access checked: an access outside the
range gives `none`. -/

section
variable {F : Type} [LinearOrder F]

/-- The array access `turn.operations[k]`, in bounds for `k = 0` and `k = 1`. -/
def turn_info.operations_at (t : turn_info F) (k : Int) : Option (turn_operation F) :=
  if k = 0 then some t.op0 else if k = 1 then some t.op1 else none

/-- The comparator `less_by_fraction_and_type::operator()` with checked accesses. -/
def less_checked (m_turns : List (turn_info F)) (left right : turn_operation_index) :
    Option Bool :=
  match m_turns[left.turn_index]?, m_turns[right.turn_index]? with
  | some left_turn, some right_turn =>
    match left_turn.operations_at left.op_index, right_turn.operations_at right.op_index with
    | some left_op, some right_op =>
      if ¬ (left_op.fraction = right_op.fraction) then
        some (decide (left_op.fraction < right_op.fraction))
      else
        let left_code : Nat :=
          if left_turn.both operation_type.operation_union then 0 else 1
        let right_code : Nat :=
          if right_turn.both operation_type.operation_union then 0 else 1
        if left_code ≠ right_code then some (decide (left_code < right_code))
        else some (decide (left.turn_index < right.turn_index))
    | _, _ => none
  | _, _ => none

/-- The insertion step of the sort with a comparator that can fail. -/
def sort_insert_checked {α : Type} (less : α → α → Option Bool) (a : α) :
    List α → Option (List α)
  | [] => some [a]
  | b :: l =>
    match less b a with
    | none => none
    | some true =>
      match sort_insert_checked less a l with
      | none => none
      | some r => some (b :: r)
    | some false => some (a :: b :: l)

/-- The call `std::sort(first, last, less)` with a comparator that can fail. -/
def std_sort_checked {α : Type} (less : α → α → Option Bool) : List α → Option (List α)
  | [] => some []
  | a :: l =>
    match std_sort_checked less l with
    | none => none
    | some r => sort_insert_checked less a r

/-- The loop that sorts every vector, with checked accesses. -/
def sort_map_checked (turn_points : List (turn_info F)) : map_type → Option map_type
  | [] => some []
  | it :: rest =>
    match std_sort_checked (less_checked turn_points) it.2 with
    | none => none
    | some v =>
      match sort_map_checked turn_points rest with
      | none => none
      | some r => some ((it.1, v) :: r)

/-- One iteration of the inner loop with checked accesses. -/
def sweep_step_checked (st : List (turn_info F) × cluster F) (toi : turn_operation_index) :
    Option (List (turn_info F) × cluster F) :=
  match st.1[toi.turn_index]? with
  | none => none
  | some turn =>
    match turn.operations_at toi.op_index, turn.operations_at (1 - (toi.op_index : Int)) with
    | some op, some other =>
      let other_id := other.seg_id
      if st.2.cluster_op.fraction = op.fraction then
        if st.2.cluster_turn.both operation_type.operation_union
            && !turn.both operation_type.operation_union
            && !turn.both operation_type.operation_continue then
          let turn1 := { turn with colocated := true }
          let turn2 :=
            if discard_test st.2.cluster_other_id other_id then
              { turn1 with discarded := true }
            else turn1
          some (st.1.set toi.turn_index turn2, st.2)
        else some st
      else some (st.1, ⟨turn, op, other_id⟩)
    | _, _ => none

/-- The inner loop with checked accesses. -/
def sweep_checked : List (turn_info F) × cluster F → List turn_operation_index →
    Option (List (turn_info F) × cluster F)
  | st, [] => some st
  | st, toi :: rest =>
    match sweep_step_checked st toi with
    | none => none
    | some st1 => sweep_checked st1 rest

/-- The body of the last loop for one vector, with checked accesses. -/
def sweep_bucket_checked (turn_points : List (turn_info F)) :
    List turn_operation_index → Option (List (turn_info F))
  | [] => some turn_points
  | [_] => some turn_points
  | vit :: rest =>
    match turn_points[vit.turn_index]? with
    | none => none
    | some cluster_turn =>
      match cluster_turn.operations_at vit.op_index,
          cluster_turn.operations_at (1 - (vit.op_index : Int)) with
      | some cluster_op, some cluster_other =>
        match sweep_checked (turn_points, ⟨cluster_turn, cluster_op, cluster_other.seg_id⟩)
            rest with
        | none => none
        | some st => some st.1
      | _, _ => none

/-- The last loop over the map, with checked accesses. -/
def sweep_map_checked : List (turn_info F) → map_type → Option (List (turn_info F))
  | tp, [] => some tp
  | tp, it :: rest =>
    match sweep_bucket_checked tp it.2 with
    | none => none
    | some tp1 => sweep_map_checked tp1 rest

/-- The function `handle_colocations` with checked accesses: `none` is an
access outside the range. -/
def handle_colocations_checked (turn_points : List (turn_info F)) :
    Option (List (turn_info F)) :=
  let map := fill_map 0 turn_points []
  if !has_colocations map then some turn_points
  else
    match sort_map_checked turn_points map with
    | none => none
    | some sorted => sweep_map_checked turn_points sorted

end

/-! ## Example turns

Fractions of the examples are fixed-point numbers, in thousandths. -/

/-- The segment the example turns share. -/
def ex_shared : segment_identifier := ⟨7, 0, 4⟩

/-- A both-union turn at 0.5 on the shared segment, paired with the exterior
ring of part 0. -/
def ex_A : turn_info Nat :=
  ⟨⟨operation_type.operation_union, ex_shared, 500⟩,
    ⟨operation_type.operation_union, ⟨0, -1, 3⟩, 250⟩, false, false⟩

/-- A both-union turn at 0.5 on the shared segment, paired with interior ring 0
of part 0. -/
def ex_A_hole : turn_info Nat :=
  ⟨⟨operation_type.operation_union, ex_shared, 500⟩,
    ⟨operation_type.operation_union, ⟨0, 0, 3⟩, 250⟩, false, false⟩

/-- A union/intersection turn at 0.5 on the shared segment, paired with
interior ring 2 of part 0. -/
def ex_B : turn_info Nat :=
  ⟨⟨operation_type.operation_union, ex_shared, 500⟩,
    ⟨operation_type.operation_intersection, ⟨0, 2, 7⟩, 750⟩, false, false⟩

/-- As `ex_B`, but paired with interior ring 2 of part 1. -/
def ex_B_far : turn_info Nat :=
  ⟨⟨operation_type.operation_union, ex_shared, 500⟩,
    ⟨operation_type.operation_intersection, ⟨1, 2, 7⟩, 750⟩, false, false⟩

/-- A union/intersection turn at 0.7 on the shared segment. -/
def ex_C : turn_info Nat :=
  ⟨⟨operation_type.operation_union, ex_shared, 700⟩,
    ⟨operation_type.operation_intersection, ⟨0, 2, 7⟩, 750⟩, false, false⟩

/-- A union/intersection turn that shares no segment with the other examples. -/
def ex_D : turn_info Nat :=
  ⟨⟨operation_type.operation_union, ⟨7, 0, 5⟩, 500⟩,
    ⟨operation_type.operation_intersection, ⟨0, 2, 8⟩, 100⟩, false, false⟩

/-- A both-union turn at 0.5 on the shared segment, paired with the next
segment of the exterior ring of part 0: with `ex_A` a touch at a vertex of that
ring. -/
def ex_A_vertex : turn_info Nat :=
  ⟨⟨operation_type.operation_union, ex_shared, 500⟩,
    ⟨operation_type.operation_union, ⟨0, -1, 4⟩, 0⟩, false, false⟩

set_option linter.unusedSectionVars false

section
variable {F : Type} [LinearOrder F]

theorem turn_key_mark (d : Bool) (t : turn_info F) : turn_key (mark d t) = turn_key t := rfl

theorem key_lookup {ts ts' : List (turn_info F)} (h : ts.map turn_key = ts'.map turn_key)
    (i : Nat) : (ts[i]?).map turn_key = (ts'[i]?).map turn_key := by
  rw [← List.getElem?_map, ← List.getElem?_map, h]

theorem key_lookup_none {ts ts' : List (turn_info F)} (h : ts.map turn_key = ts'.map turn_key)
    {i : Nat} (hi : ts[i]? = none) : ts'[i]? = none := by
  have := key_lookup h i
  rw [hi] at this
  simpa using this.symm

theorem key_lookup_some {ts ts' : List (turn_info F)} (h : ts.map turn_key = ts'.map turn_key)
    {i : Nat} {t : turn_info F} (hi : ts[i]? = some t) :
    ∃ t', ts'[i]? = some t' ∧ t'.op0 = t.op0 ∧ t'.op1 = t.op1 := by
  have := key_lookup h i
  rw [hi] at this
  cases h' : ts'[i]? with
  | none => rw [h'] at this; simp at this
  | some t' =>
    rw [h'] at this
    simp only [Option.map_some', Option.some.injEq, turn_key, Prod.mk.injEq] at this
    exact ⟨t', rfl, this.1.symm, this.2.symm⟩

theorem both_congr {t t' : turn_info F} (h0 : t'.op0 = t.op0) (h1 : t'.op1 = t.op1)
    (kind : operation_type) : t'.both kind = t.both kind := by
  simp [turn_info.both, h0, h1]

theorem operations_congr {t t' : turn_info F} (h0 : t'.op0 = t.op0) (h1 : t'.op1 = t.op1)
    (k : Nat) : t'.operations k = t.operations k := by
  simp [turn_info.operations, h0, h1]

theorem anchor_of_congr {t t' : turn_info F} (h0 : t'.op0 = t.op0) (h1 : t'.op1 = t.op1)
    (k : Nat) : anchor_of t' k = anchor_of t k := by
  simp [anchor_of, both_congr h0 h1, operations_congr h0 h1]

theorem apply_event_key (tp : List (turn_info F)) (e : Nat × Bool) :
    (apply_event tp e).map turn_key = tp.map turn_key := by
  unfold apply_event
  split
  · rfl
  · next t ht =>
    rw [List.map_set, turn_key_mark]
    apply List.ext_getElem?
    intro n
    rw [List.getElem?_set]
    split
    · next h =>
      subst h
      split
      · rw [List.getElem?_map, ht]; rfl
      · next hlt =>
        exact (List.getElem?_eq_none (Nat.le_of_not_lt hlt)).symm
    · rfl

theorem apply_events_key (evs : List (Nat × Bool)) (tp : List (turn_info F)) :
    (apply_events tp evs).map turn_key = tp.map turn_key := by
  induction evs generalizing tp with
  | nil => rfl
  | cons e evs ih =>
    show (apply_events (apply_event tp e) evs).map turn_key = _
    rw [ih, apply_event_key]

theorem apply_events_append (tp : List (turn_info F)) (e1 e2 : List (Nat × Bool)) :
    apply_events tp (e1 ++ e2) = apply_events (apply_events tp e1) e2 := by
  simp [apply_events, List.foldl_append]

theorem apply_event_get (tp : List (turn_info F)) (e : Nat × Bool) (i : Nat) :
    (apply_event tp e)[i]? = (tp[i]?).map (fun t => if e.1 = i then mark e.2 t else t) := by
  unfold apply_event
  split
  · next hn =>
    by_cases h : e.1 = i
    · subst h; rw [hn]; rfl
    · cases tp[i]? <;> simp [h]
  · next t ht =>
    rw [List.getElem?_set]
    by_cases h : e.1 = i
    · subst h
      have hlt : e.1 < tp.length := by
        rcases List.getElem?_eq_some.1 ht with ⟨hl, _⟩
        exact hl
      simp [ht, hlt]
    · cases tp[i]? <;> simp [h]

theorem flag_result_cons (e : Nat × Bool) (evs : List (Nat × Bool)) (i : Nat)
    (t : turn_info F) :
    flag_result evs i (if e.1 = i then mark e.2 t else t) = flag_result (e :: evs) i t := by
  cases t with
  | mk o0 o1 d c =>
    by_cases h : e.1 = i
    · cases hd : e.2 <;> simp [flag_result, mark, h, hd]
    · simp [flag_result, h]

theorem apply_events_get (evs : List (Nat × Bool)) (tp : List (turn_info F)) (i : Nat) :
    (apply_events tp evs)[i]? = (tp[i]?).map (flag_result evs i) := by
  induction evs generalizing tp with
  | nil =>
    cases h : tp[i]? with
    | none => simpa [apply_events] using h
    | some t => cases t; simpa [apply_events, flag_result] using h
  | cons e evs ih =>
    show (apply_events (apply_event tp e) evs)[i]? = _
    rw [ih, apply_event_get]
    cases tp[i]? with
    | none => rfl
    | some t => simp [flag_result_cons]

/-! ## The sweep only reads operations -/

theorem less_congr {ts ts' : List (turn_info F)} (h : ts.map turn_key = ts'.map turn_key) :
    less_by_fraction_and_type ts = less_by_fraction_and_type ts' := by
  funext a b
  unfold less_by_fraction_and_type
  cases ha : ts[a.turn_index]? with
  | none => rw [key_lookup_none h ha]
  | some ta =>
    obtain ⟨ta', ha', h0, h1⟩ := key_lookup_some h ha
    rw [ha']
    cases hb : ts[b.turn_index]? with
    | none => rw [key_lookup_none h hb]
    | some tb =>
      obtain ⟨tb', hb', g0, g1⟩ := key_lookup_some h hb
      rw [hb']
      simp only [both_congr h0 h1, both_congr g0 g1, operations_congr h0 h1,
        operations_congr g0 g1]

theorem sweep_events_congr {ts ts' : List (turn_info F)}
    (h : ts.map turn_key = ts'.map turn_key) (a : anchor F) (l : List turn_operation_index) :
    sweep_events ts a l = sweep_events ts' a l := by
  induction l generalizing a with
  | nil => rfl
  | cons toi rest ih =>
    unfold sweep_events
    cases ht : ts[toi.turn_index]? with
    | none => rw [key_lookup_none h ht]; exact ih a
    | some t =>
      obtain ⟨t', ht', h0, h1⟩ := key_lookup_some h ht
      rw [ht']
      simp only [both_congr h0 h1, operations_congr h0 h1, anchor_of_congr h0 h1, ih]

theorem bucket_events_congr {ts ts' : List (turn_info F)}
    (h : ts.map turn_key = ts'.map turn_key) (l : List turn_operation_index) :
    bucket_events ts l = bucket_events ts' l := by
  cases l with
  | nil => rfl
  | cons vit rest =>
    simp only [bucket_events]
    cases ht : ts[vit.turn_index]? with
    | none => rw [key_lookup_none h ht]
    | some t =>
      obtain ⟨t', ht', h0, h1⟩ := key_lookup_some h ht
      rw [ht']
      simp only [anchor_of_congr h0 h1, sweep_events_congr h]

theorem map_events_congr {ts ts' : List (turn_info F)}
    (h : ts.map turn_key = ts'.map turn_key) (m : map_type) :
    map_events ts m = map_events ts' m := by
  unfold map_events
  congr 1
  funext it
  exact bucket_events_congr h it.2

theorem fill_map_congr {ts ts' : List (turn_info F)}
    (h : ts.map turn_key = ts'.map turn_key) (index : Nat) (m : map_type) :
    fill_map index ts m = fill_map index ts' m := by
  induction ts generalizing ts' index m with
  | nil =>
    cases ts' with
    | nil => rfl
    | cons _ _ => simp at h
  | cons t rest ih =>
    cases ts' with
    | nil => simp at h
    | cons t' rest' =>
      simp only [List.map_cons, List.cons.injEq, turn_key, Prod.mk.injEq] at h
      obtain ⟨⟨h0, h1⟩, hr⟩ := h
      unfold fill_map
      rw [operations_congr h0.symm h1.symm, operations_congr h0.symm h1.symm]
      exact ih hr _ _

theorem all_events_congr {ts ts' : List (turn_info F)}
    (h : ts.map turn_key = ts'.map turn_key) : all_events ts = all_events ts' := by
  unfold all_events sort_map
  rw [fill_map_congr h, less_congr h, map_events_congr h]

/-! ## The sweep as a list of flag updates -/

theorem sweep_step_none {tp : List (turn_info F)} {toi : turn_operation_index}
    (c : cluster F) (ht : tp[toi.turn_index]? = none) : sweep_step (tp, c) toi = (tp, c) := by
  simp only [sweep_step, ht]

theorem sweep_step_some {tp : List (turn_info F)} {toi : turn_operation_index}
    {turn : turn_info F} (c : cluster F) (ht : tp[toi.turn_index]? = some turn) :
    sweep_step (tp, c) toi =
      if c.cluster_op.fraction = (turn.operations toi.op_index).fraction then
        if (c.cluster_turn.both operation_type.operation_union
            && !turn.both operation_type.operation_union
            && !turn.both operation_type.operation_continue) = true then
          (tp.set toi.turn_index
            (mark (discard_test c.cluster_other_id
              (turn.operations (1 - toi.op_index)).seg_id) turn), c)
        else (tp, c)
      else (tp, ⟨turn, turn.operations toi.op_index,
        (turn.operations (1 - toi.op_index)).seg_id⟩) := by
  simp only [sweep_step, ht]
  have hm : ∀ d : Bool,
      (if d = true then
        ({ op0 := turn.op0, op1 := turn.op1, discarded := true, colocated := true } :
          turn_info F)
      else { op0 := turn.op0, op1 := turn.op1, discarded := turn.discarded, colocated := true })
      = mark d turn := by
    intro d; cases d <;> simp [mark]
  rw [hm]

theorem sweep_fold (l : List turn_operation_index) (tp : List (turn_info F)) (c : cluster F) :
    (l.foldl sweep_step (tp, c)).1 = apply_events tp (sweep_events tp c.view l) := by
  induction l generalizing tp c with
  | nil => rfl
  | cons toi rest ih =>
    rw [List.foldl_cons]
    cases ht : tp[toi.turn_index]? with
    | none =>
      rw [sweep_step_none c ht, ih]
      simp only [sweep_events, ht]
    | some turn =>
      rw [sweep_step_some c ht]
      simp only [sweep_events, ht]
      by_cases hf : c.cluster_op.fraction = (turn.operations toi.op_index).fraction
      · have hf' : c.view.fraction = (turn.operations toi.op_index).fraction := hf
        rw [if_pos hf, if_pos hf']
        by_cases hfire : (c.cluster_turn.both operation_type.operation_union
            && !turn.both operation_type.operation_union
            && !turn.both operation_type.operation_continue) = true
        · have hfire' : (c.view.uu && !turn.both operation_type.operation_union
            && !turn.both operation_type.operation_continue) = true := hfire
          rw [if_pos hfire, if_pos hfire', ih]
          have hset : tp.set toi.turn_index
              (mark (discard_test c.cluster_other_id
                (turn.operations (1 - toi.op_index)).seg_id) turn)
              = apply_event tp (toi.turn_index,
                discard_test c.view.other_id (turn.operations (1 - toi.op_index)).seg_id) := by
            simp only [apply_event, ht]; rfl
          rw [hset, sweep_events_congr (apply_event_key tp _)]
          rfl
        · have hfire' : ¬ (c.view.uu && !turn.both operation_type.operation_union
            && !turn.both operation_type.operation_continue) = true := hfire
          rw [if_neg hfire, if_neg hfire']
          exact ih tp c
      · have hf' : ¬ c.view.fraction = (turn.operations toi.op_index).fraction := hf
        rw [if_neg hf, if_neg hf', ih]
        rfl

theorem sweep_bucket_eq (tp : List (turn_info F)) (l : List turn_operation_index) :
    sweep_bucket tp l = apply_events tp (bucket_events tp l) := by
  match l with
  | [] => rfl
  | [vit] =>
    simp only [sweep_bucket, bucket_events]
    cases tp[vit.turn_index]? <;> rfl
  | vit :: w :: rest =>
    simp only [sweep_bucket, bucket_events]
    cases ht : tp[vit.turn_index]? with
    | none => rfl
    | some t => simp only []; rw [sweep_fold]; rfl

theorem sweep_map_eq (ts : List (turn_info F)) (m : map_type) (tp : List (turn_info F))
    (h : tp.map turn_key = ts.map turn_key) :
    m.foldl (fun tp it => sweep_bucket tp it.2) tp = apply_events tp (map_events ts m) := by
  induction m generalizing tp with
  | nil => rfl
  | cons it rest ih =>
    rw [List.foldl_cons, sweep_bucket_eq, ih _ ((apply_events_key _ _).trans h)]
    simp only [map_events, List.flatMap_cons]
    rw [apply_events_append, bucket_events_congr h]

/-- The function `handle_colocations` writes the flag updates `all_events`,
unless it returns early. -/
theorem handle_colocations_eq (ts : List (turn_info F)) :
    handle_colocations ts =
      if has_colocations (fill_map 0 ts []) then apply_events ts (all_events ts) else ts := by
  unfold handle_colocations
  cases h : has_colocations (fill_map 0 ts []) with
  | false => simp [h]
  | true =>
    simp only [h, Bool.not_true, Bool.false_eq_true, if_false, if_true]
    exact sweep_map_eq ts _ ts rfl

end

/-! ## The comparator is the order of the sort rank -/

section
variable {F : Type} [LinearOrder F]

theorem less_iff_rank {ts : List (turn_info F)} {a b : turn_operation_index}
    {ta tb : turn_info F} (ha : ts[a.turn_index]? = some ta)
    (hb : ts[b.turn_index]? = some tb) :
    less_by_fraction_and_type ts a b = true ↔ sort_rank ta a < sort_rank tb b := by
  simp only [less_by_fraction_and_type, ha, hb, sort_rank, Prod.Lex.lt_iff, type_code]
  by_cases hf : (ta.operations a.op_index).fraction = (tb.operations b.op_index).fraction
  · simp only [hf, not_true_eq_false, if_false, lt_self_iff_false, true_and, false_or]
    by_cases hc : (if ta.both operation_type.operation_union = true then 0 else 1)
        = (if tb.both operation_type.operation_union = true then (0 : Nat) else 1)
    · simp [hc]
    · simp only [ne_eq, hc, not_false_eq_true, if_true, decide_eq_true_eq, false_and, or_false]
  · simp only [hf, not_false_eq_true, if_true, decide_eq_true_eq, false_and, or_false]

theorem less_eq_false_iff_rank {ts : List (turn_info F)} {a b : turn_operation_index}
    {ta tb : turn_info F} (ha : ts[a.turn_index]? = some ta)
    (hb : ts[b.turn_index]? = some tb) :
    less_by_fraction_and_type ts a b = false ↔ sort_rank tb b ≤ sort_rank ta a := by
  rw [← not_lt, ← less_iff_rank ha hb]
  simp

/-! ## Sorting -/

theorem sort_insert_perm {α : Type} (less : α → α → Bool) (a : α) (l : List α) :
    (sort_insert less a l).Perm (a :: l) := by
  induction l with
  | nil => exact List.Perm.refl _
  | cons b l ih =>
    unfold sort_insert
    split
    · exact ((List.Perm.cons b ih).trans (List.Perm.swap a b l))
    · exact List.Perm.refl _

theorem std_sort_perm {α : Type} (less : α → α → Bool) (l : List α) :
    (std_sort less l).Perm l := by
  induction l with
  | nil => exact List.Perm.refl _
  | cons a l ih =>
    unfold std_sort
    exact (sort_insert_perm less a _).trans (List.Perm.cons a ih)

theorem sort_insert_sorted {α : Type} (less : α → α → Bool) (P : α → Prop)
    (hasymm : ∀ x y, P x → P y → less x y = true → less y x = false)
    (htrans : ∀ x y z, P x → P y → P z → less y x = false → less z y = false →
      less z x = false)
    (a : α) (l : List α) (hP : ∀ x ∈ a :: l, P x)
    (hs : l.Pairwise (fun x y => less y x = false)) :
    (sort_insert less a l).Pairwise (fun x y => less y x = false) := by
  induction l with
  | nil => simp [sort_insert]
  | cons b l ih =>
    have hPa : P a := hP a (List.mem_cons_self _ _)
    have hPb : P b := hP b (List.mem_cons_of_mem _ (List.mem_cons_self _ _))
    have hPl : ∀ x ∈ l, P x := fun x hx =>
      hP x (List.mem_cons_of_mem _ (List.mem_cons_of_mem _ hx))
    rw [List.pairwise_cons] at hs
    unfold sort_insert
    split
    · next hba =>
      rw [List.pairwise_cons]
      refine ⟨?_, ih ?_ hs.2⟩
      · intro y hy
        rcases List.mem_cons.1 ((sort_insert_perm less a l).mem_iff.1 hy) with h | h
        · subst h; exact hasymm b y hPb hPa hba
        · exact hs.1 y h
      · intro x hx
        rcases List.mem_cons.1 hx with h | h
        · subst h; exact hPa
        · exact hPl x h
    · next hba =>
      have hba' : less b a = false := by simpa using hba
      rw [List.pairwise_cons]
      refine ⟨?_, List.pairwise_cons.2 hs⟩
      intro y hy
      rcases List.mem_cons.1 hy with h | h
      · subst h; exact hba'
      · exact htrans a b y hPa hPb (hPl y h) hba' (hs.1 y h)

theorem std_sort_sorted {α : Type} (less : α → α → Bool) (P : α → Prop)
    (hasymm : ∀ x y, P x → P y → less x y = true → less y x = false)
    (htrans : ∀ x y z, P x → P y → P z → less y x = false → less z y = false →
      less z x = false)
    (l : List α) (hP : ∀ x ∈ l, P x) :
    (std_sort less l).Pairwise (fun x y => less y x = false) := by
  induction l with
  | nil => simp [std_sort]
  | cons a l ih =>
    unfold std_sort
    have hPl : ∀ x ∈ l, P x := fun x hx => hP x (List.mem_cons_of_mem _ hx)
    apply sort_insert_sorted less P hasymm htrans a _ _ (ih hPl)
    intro x hx
    rcases List.mem_cons.1 hx with h | h
    · subst h; exact hP _ (List.mem_cons_self _ _)
    · exact hPl x ((std_sort_perm less l).mem_iff.1 h)

theorem less_asymm {ts : List (turn_info F)} (x y : turn_operation_index)
    (hx : ∃ t, ts[x.turn_index]? = some t) (hy : ∃ t, ts[y.turn_index]? = some t)
    (h : less_by_fraction_and_type ts x y = true) :
    less_by_fraction_and_type ts y x = false := by
  obtain ⟨tx, hx⟩ := hx
  obtain ⟨ty, hy⟩ := hy
  rw [less_eq_false_iff_rank hy hx]
  exact le_of_lt ((less_iff_rank hx hy).1 h)

theorem less_neg_trans {ts : List (turn_info F)} (x y z : turn_operation_index)
    (hx : ∃ t, ts[x.turn_index]? = some t) (hy : ∃ t, ts[y.turn_index]? = some t)
    (hz : ∃ t, ts[z.turn_index]? = some t)
    (h1 : less_by_fraction_and_type ts y x = false)
    (h2 : less_by_fraction_and_type ts z y = false) :
    less_by_fraction_and_type ts z x = false := by
  obtain ⟨tx, hx⟩ := hx
  obtain ⟨ty, hy⟩ := hy
  obtain ⟨tz, hz⟩ := hz
  rw [less_eq_false_iff_rank hz hx]
  exact le_trans ((less_eq_false_iff_rank hy hx).1 h1) ((less_eq_false_iff_rank hz hy).1 h2)

theorem bucket_sorted (ts : List (turn_info F)) (l : List turn_operation_index)
    (hl : ∀ x ∈ l, ∃ t, ts[x.turn_index]? = some t) :
    (std_sort (less_by_fraction_and_type ts) l).Pairwise
      (fun x y => less_by_fraction_and_type ts y x = false) :=
  std_sort_sorted _ (fun x => ∃ t, ts[x.turn_index]? = some t)
    less_asymm less_neg_trans l hl

end

/-! ## Which flag updates the sweep makes -/

section
variable {F : Type} [LinearOrder F]

theorem is_anchor_unique {ts : List (turn_info F)} {x : turn_operation_index}
    {t : turn_info F} {a : anchor F} (ht : ts[x.turn_index]? = some t)
    (ha : is_anchor ts x a) : a = anchor_of t x.op_index := by
  obtain ⟨tx, htx, rfl⟩ := ha
  rw [ht] at htx
  cases htx
  rfl

/-- Every flag update of the inner loop is made on an entry `y` of the vector,
with a cluster that is the starting one or an earlier entry of the vector. -/
theorem sweep_events_sound (ts : List (turn_info F)) (l : List turn_operation_index)
    (a : anchor F) (e : Nat × Bool) (he : e ∈ sweep_events ts a l) :
    ∃ y, (y ∈ l ∧ fires_on ts a y e)
      ∨ (∃ x a', List.Sublist [x, y] l ∧ is_anchor ts x a' ∧ fires_on ts a' y e) := by
  induction l generalizing a with
  | nil => simp [sweep_events] at he
  | cons toi rest ih =>
    have lift : (∃ y, (y ∈ rest ∧ fires_on ts a y e)
        ∨ (∃ x a', List.Sublist [x, y] rest ∧ is_anchor ts x a' ∧ fires_on ts a' y e)) →
        ∃ y, (y ∈ toi :: rest ∧ fires_on ts a y e)
        ∨ (∃ x a', List.Sublist [x, y] (toi :: rest) ∧ is_anchor ts x a'
            ∧ fires_on ts a' y e) := by
      rintro ⟨y, h | ⟨x, a', hs, r⟩⟩
      · exact ⟨y, Or.inl ⟨List.mem_cons_of_mem _ h.1, h.2⟩⟩
      · exact ⟨y, Or.inr ⟨x, a', hs.cons _, r⟩⟩
    simp only [sweep_events] at he
    cases ht : ts[toi.turn_index]? with
    | none =>
      rw [ht] at he
      exact lift (ih a he)
    | some turn =>
      rw [ht] at he
      simp only [] at he
      by_cases hf : a.fraction = (turn.operations toi.op_index).fraction
      · rw [if_pos hf] at he
        by_cases hfire : (a.uu && !turn.both operation_type.operation_union
            && !turn.both operation_type.operation_continue) = true
        · rw [if_pos hfire] at he
          rcases List.mem_cons.1 he with h | h
          · refine ⟨toi, Or.inl ⟨List.mem_cons_self _ _, turn, ht, h, ?_⟩⟩
            simp only [Bool.and_eq_true, Bool.not_eq_true'] at hfire
            exact ⟨hfire.1.1, hfire.1.2, hfire.2, hf⟩
          · exact lift (ih a h)
        · rw [if_neg hfire] at he
          exact lift (ih a he)
      · rw [if_neg hf] at he
        rcases ih _ he with ⟨y, h | ⟨x, a', hs, r⟩⟩
        · refine ⟨y, Or.inr ⟨toi, _, ?_, ⟨turn, ht, rfl⟩, h.2⟩⟩
          exact List.Sublist.cons₂ _ (List.singleton_sublist.2 h.1)
        · exact ⟨y, Or.inr ⟨x, a', hs.cons _, r⟩⟩

theorem bucket_events_sound (ts : List (turn_info F)) (l : List turn_operation_index)
    (e : Nat × Bool) (he : e ∈ bucket_events ts l) :
    ∃ x y a', List.Sublist [x, y] l ∧ is_anchor ts x a' ∧ fires_on ts a' y e := by
  cases l with
  | nil => simp [bucket_events] at he
  | cons vit rest =>
    simp only [bucket_events] at he
    cases ht : ts[vit.turn_index]? with
    | none => rw [ht] at he; simp at he
    | some turn =>
      rw [ht] at he
      rcases sweep_events_sound ts rest _ e he with ⟨y, h | ⟨x, a', hs, r⟩⟩
      · exact ⟨vit, y, _, List.Sublist.cons₂ _ (List.singleton_sublist.2 h.1),
          ⟨turn, ht, rfl⟩, h.2⟩
      · exact ⟨x, y, a', hs.cons _, r⟩

theorem sweep_events_cons_subset (ts : List (turn_info F)) (toi : turn_operation_index)
    (rest : List turn_operation_index) (a : anchor F) (turn : turn_info F)
    (ht : ts[toi.turn_index]? = some turn)
    (hf : a.fraction = (turn.operations toi.op_index).fraction) (e : Nat × Bool)
    (he : e ∈ sweep_events ts a rest) : e ∈ sweep_events ts a (toi :: rest) := by
  simp only [sweep_events, ht, if_pos hf]
  split
  · exact List.mem_cons_of_mem _ he
  · exact he

/-- On a sorted vector the inner loop flags every entry `y` of a turn that is
neither both-union nor both-continue and has a both-union anchor at its
fraction, and the cluster it holds then is both-union with that fraction. -/
theorem sweep_events_complete (ts : List (turn_info F)) (l : List turn_operation_index)
    (a : anchor F)
    (hsorted : l.Pairwise (fun x y => ∀ ax ay, is_anchor ts x ax → is_anchor ts y ay →
      anchor_le ax ay))
    (hle : ∀ y ∈ l, ∀ ay, is_anchor ts y ay → anchor_le a ay)
    (y : turn_operation_index) (hy : y ∈ l) (ty : turn_info F)
    (hty : ts[y.turn_index]? = some ty)
    (hnu : ty.both operation_type.operation_union = false)
    (hnc : ty.both operation_type.operation_continue = false)
    (hex : ∃ a0, (a0 = a ∨ ∃ x ∈ l, is_anchor ts x a0) ∧ a0.uu = true
      ∧ a0.fraction = (ty.operations y.op_index).fraction) :
    ∃ a' e, (a' = a ∨ ∃ x ∈ l, is_anchor ts x a') ∧ fires_on ts a' y e
      ∧ e ∈ sweep_events ts a l := by
  induction l generalizing a with
  | nil => simp at hy
  | cons toi rest ih =>
    rw [List.pairwise_cons] at hsorted
    obtain ⟨hhead, htail⟩ := hsorted
    have hle_rest : ∀ y ∈ rest, ∀ ay, is_anchor ts y ay → anchor_le a ay :=
      fun y hy => hle y (List.mem_cons_of_mem _ hy)
    obtain ⟨a0, ha0, ha0uu, ha0f⟩ := hex
    cases ht : ts[toi.turn_index]? with
    | none =>
      have hyr : y ∈ rest := by
        rcases List.mem_cons.1 hy with h | h
        · subst h; rw [ht] at hty; cases hty
        · exact h
      have hex' : ∃ a0, (a0 = a ∨ ∃ x ∈ rest, is_anchor ts x a0) ∧ a0.uu = true
          ∧ a0.fraction = (ty.operations y.op_index).fraction := by
        refine ⟨a0, ?_, ha0uu, ha0f⟩
        rcases ha0 with h | ⟨x, hx, hxa⟩
        · exact Or.inl h
        · rcases List.mem_cons.1 hx with h | h
          · subst h
            obtain ⟨tx, htx, _⟩ := hxa
            rw [ht] at htx; cases htx
          · exact Or.inr ⟨x, h, hxa⟩
      obtain ⟨a', e, ha', hfire, he⟩ := ih a htail hle_rest hyr hex'
      refine ⟨a', e, ?_, hfire, ?_⟩
      · rcases ha' with h | ⟨x, hx, hxa⟩
        · exact Or.inl h
        · exact Or.inr ⟨x, List.mem_cons_of_mem _ hx, hxa⟩
      · simpa only [sweep_events, ht] using he
    | some turn =>
      have hb : is_anchor ts toi (anchor_of turn toi.op_index) := ⟨turn, ht, rfl⟩
      have hab : anchor_le a (anchor_of turn toi.op_index) :=
        hle toi (List.mem_cons_self _ _) _ hb
      by_cases hf : a.fraction = (turn.operations toi.op_index).fraction
      · -- the cluster stays
        have hK : ∀ a1, (a1 = a ∨ ∃ x ∈ toi :: rest, is_anchor ts x a1) → a1.uu = true →
            a1.fraction = a.fraction → a.uu = true := by
          intro a1 h1 huu hfr
          rcases h1 with h | ⟨x, hx, hxa⟩
          · rw [← h]; exact huu
          · exact (hle x hx a1 hxa).2 hfr.symm huu
        rcases List.mem_cons.1 hy with h | h
        · subst h
          rw [ht] at hty
          cases hty
          have hauu : a.uu = true := hK a0 ha0 ha0uu (ha0f.trans hf.symm)
          refine ⟨a, _, Or.inl rfl, ⟨ty, ht, rfl, hauu, hnu, hnc, hf⟩, ?_⟩
          simp only [sweep_events, ht, if_pos hf, hauu, hnu, hnc]
          simp
        · have hex' : ∃ a0, (a0 = a ∨ ∃ x ∈ rest, is_anchor ts x a0) ∧ a0.uu = true
              ∧ a0.fraction = (ty.operations y.op_index).fraction := by
            rcases ha0 with h0 | ⟨x, hx, hxa⟩
            · exact ⟨a0, Or.inl h0, ha0uu, ha0f⟩
            · rcases List.mem_cons.1 hx with hx' | hx'
              · subst hx'
                have h0 := is_anchor_unique ht hxa
                have hfr : a0.fraction = a.fraction := by rw [h0]; exact hf.symm
                refine ⟨a, Or.inl rfl, hK a0 (Or.inr ⟨x, hx, hxa⟩) ha0uu hfr, ?_⟩
                rw [← hfr]; exact ha0f
              · exact ⟨a0, Or.inr ⟨x, hx', hxa⟩, ha0uu, ha0f⟩
          obtain ⟨a', e, ha', hfire, he⟩ := ih a htail hle_rest h hex'
          refine ⟨a', e, ?_, hfire, sweep_events_cons_subset ts toi rest a turn ht hf e he⟩
          rcases ha' with h' | ⟨x, hx, hxa⟩
          · exact Or.inl h'
          · exact Or.inr ⟨x, List.mem_cons_of_mem _ hx, hxa⟩
      · -- the entry starts a new cluster
        have hle_b : ∀ y ∈ rest, ∀ ay, is_anchor ts y ay →
            anchor_le (anchor_of turn toi.op_index) ay :=
          fun y hy ay hay => hhead y hy _ ay hb hay
        rcases List.mem_cons.1 hy with h | h
        · subst h
          rw [ht] at hty
          cases hty
          exfalso
          rcases ha0 with h0 | ⟨x, hx, hxa⟩
          · rw [h0] at ha0f; exact hf ha0f
          · rcases List.mem_cons.1 hx with hx' | hx'
            · subst hx'
              have h0 := is_anchor_unique ht hxa
              rw [h0] at ha0uu
              simp only [anchor_of] at ha0uu
              rw [hnu] at ha0uu
              cases ha0uu
            · have hle0 := hle_b x hx' a0 hxa
              have := hle0.2 ha0f.symm ha0uu
              simp only [anchor_of] at this
              rw [hnu] at this
              cases this
        · have hyb := hle_b y h _ ⟨ty, hty, rfl⟩
          have hex' : ∃ a0, (a0 = anchor_of turn toi.op_index ∨ ∃ x ∈ rest, is_anchor ts x a0)
              ∧ a0.uu = true ∧ a0.fraction = (ty.operations y.op_index).fraction := by
            rcases ha0 with h0 | ⟨x, hx, hxa⟩
            · exfalso
              rw [h0] at ha0f
              have h1 : a.fraction ≤ (turn.operations toi.op_index).fraction := hab.1
              have h2 : (turn.operations toi.op_index).fraction
                  ≤ (ty.operations y.op_index).fraction := hyb.1
              rw [← ha0f] at h2
              exact hf (le_antisymm h1 h2)
            · rcases List.mem_cons.1 hx with hx' | hx'
              · subst hx'
                exact ⟨a0, Or.inl (is_anchor_unique ht hxa), ha0uu, ha0f⟩
              · exact ⟨a0, Or.inr ⟨x, hx', hxa⟩, ha0uu, ha0f⟩
          obtain ⟨a', e, ha', hfire, he⟩ := ih _ htail hle_b h hex'
          refine ⟨a', e, ?_, hfire, ?_⟩
          · rcases ha' with h' | ⟨x, hx, hxa⟩
            · exact Or.inr ⟨toi, List.mem_cons_self _ _, h' ▸ hb⟩
            · exact Or.inr ⟨x, List.mem_cons_of_mem _ hx, hxa⟩
          · simpa only [sweep_events, ht, if_neg hf] using he

theorem anchor_le_of_less {ts : List (turn_info F)} {x y : turn_operation_index}
    (h : less_by_fraction_and_type ts y x = false) (ax ay : anchor F)
    (hx : is_anchor ts x ax) (hy : is_anchor ts y ay) : anchor_le ax ay := by
  obtain ⟨tx, htx, rfl⟩ := hx
  obtain ⟨ty, hty, rfl⟩ := hy
  have hr := (less_eq_false_iff_rank hty htx).1 h
  simp only [sort_rank, Prod.Lex.le_iff, type_code] at hr
  simp only [anchor_le, anchor_of]
  rcases hr with hr | ⟨hr1, hr2⟩
  · exact ⟨le_of_lt hr, fun heq => absurd heq (ne_of_lt hr)⟩
  · refine ⟨le_of_eq hr1, fun _ huu => ?_⟩
    rw [huu] at hr2
    by_cases hxu : tx.both operation_type.operation_union = true
    · exact hxu
    · simp [hxu] at hr2

/-- On a sorted vector of valid entries the sweep flags every entry `y` of a
turn that is neither both-union nor both-continue and shares its fraction with
an entry `x` of a both-union turn; the cluster is an entry of the vector. -/
theorem bucket_events_complete (ts : List (turn_info F)) (l : List turn_operation_index)
    (hsorted : l.Pairwise (fun x y => less_by_fraction_and_type ts y x = false))
    (x : turn_operation_index) (hx : x ∈ l) (tx : turn_info F)
    (htx : ts[x.turn_index]? = some tx)
    (hxu : tx.both operation_type.operation_union = true)
    (y : turn_operation_index) (hy : y ∈ l) (ty : turn_info F)
    (hty : ts[y.turn_index]? = some ty)
    (hnu : ty.both operation_type.operation_union = false)
    (hnc : ty.both operation_type.operation_continue = false)
    (hfr : (tx.operations x.op_index).fraction = (ty.operations y.op_index).fraction)
    (hvalid : ∀ z ∈ l, ∃ t, ts[z.turn_index]? = some t) :
    ∃ x' a' e, x' ∈ l ∧ is_anchor ts x' a' ∧ fires_on ts a' y e ∧ e ∈ bucket_events ts l := by
  have hs : l.Pairwise (fun x y => ∀ ax ay, is_anchor ts x ax → is_anchor ts y ay →
      anchor_le ax ay) :=
    hsorted.imp (fun h => anchor_le_of_less h)
  cases l with
  | nil => simp at hx
  | cons vit rest =>
    rw [List.pairwise_cons] at hs
    obtain ⟨hhead, htail⟩ := hs
    obtain ⟨turn, ht⟩ := hvalid vit (List.mem_cons_self _ _)
    have hv : is_anchor ts vit (anchor_of turn vit.op_index) := ⟨turn, ht, rfl⟩
    have hle : ∀ z ∈ rest, ∀ az, is_anchor ts z az →
        anchor_le (anchor_of turn vit.op_index) az :=
      fun z hz az haz => hhead z hz _ az hv haz
    have hxa : is_anchor ts x (anchor_of tx x.op_index) := ⟨tx, htx, rfl⟩
    have hyr : y ∈ rest := by
      rcases List.mem_cons.1 hy with h | h
      · exfalso
        subst h
        rw [ht] at hty
        cases hty
        rcases List.mem_cons.1 hx with h' | h'
        · subst h'
          rw [ht] at htx
          cases htx
          rw [hnu] at hxu
          cases hxu
        · have := (hle x h' _ hxa).2 hfr.symm hxu
          simp only [anchor_of] at this
          rw [hnu] at this
          cases this
      · exact h
    have hex : ∃ a0, (a0 = anchor_of turn vit.op_index ∨ ∃ x ∈ rest, is_anchor ts x a0)
        ∧ a0.uu = true ∧ a0.fraction = (ty.operations y.op_index).fraction := by
      refine ⟨anchor_of tx x.op_index, ?_, hxu, hfr⟩
      rcases List.mem_cons.1 hx with h' | h'
      · subst h'
        exact Or.inl (is_anchor_unique ht hxa)
      · exact Or.inr ⟨x, h', hxa⟩
    obtain ⟨a', e, ha', hfire, he⟩ :=
      sweep_events_complete ts rest _ htail hle y hyr ty hty hnu hnc hex
    have he' : e ∈ bucket_events ts (vit :: rest) := by
      simpa only [bucket_events, ht] using he
    rcases ha' with h | ⟨x', hx', hxa'⟩
    · exact ⟨vit, a', e, List.mem_cons_self _ _, h ▸ hv, hfire, he'⟩
    · exact ⟨x', a', e, List.mem_cons_of_mem _ hx', hxa', hfire, he'⟩

end

/-! ## The segment map -/

section
variable {F : Type} [LinearOrder F]

theorem map_insert_perm (k : segment_identifier) (v : List turn_operation_index)
    (m : map_type) : (map_insert k v m).Perm ((k, v) :: m) := by
  induction m with
  | nil => exact List.Perm.refl _
  | cons it rest ih =>
    unfold map_insert
    split
    · exact List.Perm.refl _
    · exact (List.Perm.cons it ih).trans (List.Perm.swap _ _ _)

theorem map_entries_cons (it : segment_identifier × List turn_operation_index)
    (m : map_type) :
    map_entries (it :: m) = it.2.map (fun v => (it.1, v)) ++ map_entries m := by
  simp [map_entries]

theorem map_entries_perm {m m' : map_type} (h : m.Perm m') :
    (map_entries m).Perm (map_entries m') :=
  List.Perm.flatMap_right _ h

theorem push_found_id (k : segment_identifier) (v : turn_operation_index) (m : map_type)
    (hk : k ∉ m.map Prod.fst) :
    m.map (fun it => if it.1 = k then (it.1, it.2 ++ [v]) else it) = m := by
  induction m with
  | nil => rfl
  | cons it rest ih =>
    simp only [List.map_cons, List.mem_cons, not_or] at hk
    rw [List.map_cons, ih hk.2, if_neg (fun h => hk.1 h.symm)]

theorem push_found_keys (k : segment_identifier) (v : turn_operation_index) (m : map_type) :
    (m.map (fun it => if it.1 = k then (it.1, it.2 ++ [v]) else it)).map Prod.fst
      = m.map Prod.fst := by
  rw [List.map_map]
  apply List.map_congr_left
  intro it _
  simp only [Function.comp]
  split <;> rfl

theorem push_found_entries (k : segment_identifier) (v : turn_operation_index) (m : map_type)
    (hnd : (m.map Prod.fst).Nodup) (hk : k ∈ m.map Prod.fst) :
    (map_entries (m.map (fun it => if it.1 = k then (it.1, it.2 ++ [v]) else it))).Perm
      ((k, v) :: map_entries m) := by
  induction m with
  | nil => simp at hk
  | cons it rest ih =>
    rw [List.map_cons, List.nodup_cons] at hnd
    rw [List.map_cons, map_entries_cons, map_entries_cons]
    by_cases h : it.1 = k
    · rw [if_pos h, push_found_id k v rest (h ▸ hnd.1)]
      simp only [List.map_append, List.map_cons, List.map_nil, List.append_assoc,
        List.singleton_append, h]
      exact List.perm_middle
    · rw [if_neg h]
      have hk' : k ∈ rest.map Prod.fst := by
        rcases List.mem_cons.1 hk with h' | h'
        · exact absurd h'.symm h
        · exact h'
      exact (List.Perm.append_left _ (ih hnd.2 hk')).trans List.perm_middle

theorem map_push_back_keys (m : map_type) (k : segment_identifier)
    (v : turn_operation_index) (hnd : (m.map Prod.fst).Nodup) :
    ((map_push_back m k v).map Prod.fst).Nodup := by
  unfold map_push_back
  split
  · rw [push_found_keys]; exact hnd
  · next hk =>
    have hk' : k ∉ m.map Prod.fst := by
      intro hmem
      apply hk
      obtain ⟨it, hit, hfst⟩ := List.mem_map.1 hmem
      exact List.any_eq_true.2 ⟨it, hit, by simpa using hfst⟩
    have hp := (map_insert_perm k [v] m).map Prod.fst
    rw [hp.nodup_iff, List.map_cons, List.nodup_cons]
    exact ⟨hk', hnd⟩

theorem map_push_back_entries (m : map_type) (k : segment_identifier)
    (v : turn_operation_index) (hnd : (m.map Prod.fst).Nodup) :
    (map_entries (map_push_back m k v)).Perm ((k, v) :: map_entries m) := by
  unfold map_push_back
  split
  · next hk =>
    apply push_found_entries k v m hnd
    obtain ⟨it, hit, hfst⟩ := List.any_eq_true.1 hk
    exact List.mem_map.2 ⟨it, hit, by simpa using hfst⟩
  · have hp := map_entries_perm (map_insert_perm k [v] m)
    rw [map_entries_cons] at hp
    exact hp

theorem fill_map_spec (ts : List (turn_info F)) (index : Nat) (m : map_type)
    (hnd : (m.map Prod.fst).Nodup) :
    ((fill_map index ts m).map Prod.fst).Nodup
      ∧ (map_entries (fill_map index ts m)).Perm (map_entries m ++ pushed_entries index ts) := by
  induction ts generalizing index m with
  | nil => simp [fill_map, pushed_entries, hnd]
  | cons t rest ih =>
    unfold fill_map pushed_entries
    have h1 := map_push_back_keys m (t.operations 0).seg_id ⟨index, 0⟩ hnd
    have h2 := map_push_back_keys _ (t.operations 1).seg_id ⟨index, 1⟩ h1
    have e1 := map_push_back_entries m (t.operations 0).seg_id ⟨index, 0⟩ hnd
    have e2 := map_push_back_entries _ (t.operations 1).seg_id ⟨index, 1⟩ h1
    obtain ⟨hk, he⟩ := ih (index + 1) _ h2
    refine ⟨hk, he.trans ?_⟩
    have e3 := e2.trans (List.Perm.cons _ e1)
    refine (List.Perm.append_right _ e3).trans ?_
    simp only [List.cons_append]
    refine (List.Perm.swap _ _ _).trans ?_
    refine (List.Perm.cons _ List.perm_middle.symm).trans ?_
    exact List.perm_middle.symm

theorem pushed_entries_fst (ts : List (turn_info F)) (index : Nat) :
    (pushed_entries index ts).map Prod.fst = all_seg_ids ts := by
  induction ts generalizing index with
  | nil => rfl
  | cons t rest ih =>
    simp only [pushed_entries, List.map_cons, all_seg_ids, List.flatMap_cons,
      List.cons_append, List.nil_append, List.cons.injEq, true_and]
    exact ih (index + 1)

theorem mem_pushed_entries (ts : List (turn_info F)) (index : Nat)
    (s : segment_identifier) (e : turn_operation_index) :
    (s, e) ∈ pushed_entries index ts ↔
      ∃ t, index ≤ e.turn_index ∧ ts[e.turn_index - index]? = some t ∧ e.op_index < 2
        ∧ (t.operations e.op_index).seg_id = s := by
  induction ts generalizing index with
  | nil => simp [pushed_entries]
  | cons t rest ih =>
    simp only [pushed_entries, List.mem_cons, Prod.mk.injEq, ih]
    constructor
    · rintro (⟨hs, he⟩ | ⟨hs, he⟩ | ⟨t', hle, hlook, hop, hseg⟩)
      · subst he; exact ⟨t, le_refl _, by simp, by simp, hs.symm⟩
      · subst he; exact ⟨t, le_refl _, by simp, by simp, hs.symm⟩
      · refine ⟨t', by omega, ?_, hop, hseg⟩
        have : e.turn_index - index = (e.turn_index - (index + 1)) + 1 := by omega
        rw [this, List.getElem?_cons_succ]
        exact hlook
    · rintro ⟨t', hle, hlook, hop, hseg⟩
      by_cases hi : e.turn_index = index
      · have h0 : e.turn_index - index = 0 := by omega
        rw [h0] at hlook
        simp only [List.getElem?_cons_zero, Option.some.injEq] at hlook
        subst hlook
        have hcases : e.op_index = 0 ∨ e.op_index = 1 := by omega
        rcases hcases with h | h
        · left
          refine ⟨by rw [← hseg, h], ?_⟩
          cases e; simp only at hi h; subst hi; subst h; rfl
        · right; left
          refine ⟨by rw [← hseg, h], ?_⟩
          cases e; simp only at hi h; subst hi; subst h; rfl
      · right; right
        refine ⟨t', by omega, ?_, hop, hseg⟩
        have : e.turn_index - index = (e.turn_index - (index + 1)) + 1 := by omega
        rw [this, List.getElem?_cons_succ] at hlook
        exact hlook

theorem mem_pushed_entries_zero (ts : List (turn_info F)) (s : segment_identifier)
    (e : turn_operation_index) : (s, e) ∈ pushed_entries 0 ts ↔ entry_on ts s e := by
  rw [mem_pushed_entries]
  simp [entry_on]

theorem pushed_entries_nodup (ts : List (turn_info F)) (index : Nat) :
    (pushed_entries index ts).Nodup := by
  induction ts generalizing index with
  | nil => simp [pushed_entries]
  | cons t rest ih =>
    unfold pushed_entries
    rw [List.nodup_cons, List.nodup_cons]
    refine ⟨?_, ?_, ih (index + 1)⟩
    · intro h
      rcases List.mem_cons.1 h with h | h
      · simp at h
      · obtain ⟨_, hle, _⟩ := (mem_pushed_entries rest (index + 1) _ _).1 h
        simp at hle
    · intro h
      obtain ⟨_, hle, _⟩ := (mem_pushed_entries rest (index + 1) _ _).1 h
      simp at hle

theorem bucket_sublist_entries {m : map_type}
    {it : segment_identifier × List turn_operation_index} (h : it ∈ m) :
    List.Sublist (it.2.map (fun v => (it.1, v))) (map_entries m) := by
  unfold map_entries List.flatMap
  exact List.sublist_flatten_of_mem (List.mem_map.2 ⟨it, h, rfl⟩)

theorem mem_map_entries {m : map_type} {s : segment_identifier}
    {e : turn_operation_index} :
    (s, e) ∈ map_entries m ↔ ∃ it ∈ m, it.1 = s ∧ e ∈ it.2 := by
  simp only [map_entries, List.mem_flatMap, List.mem_map, Prod.mk.injEq]
  constructor
  · rintro ⟨it, hit, v, hv, hs, rfl⟩
    exact ⟨it, hit, hs, hv⟩
  · rintro ⟨it, hit, hs, hv⟩
    exact ⟨it, hit, e, hv, hs, rfl⟩

/-- The keys of the map built by the first loop are pairwise different. -/
theorem fill_map_keys (ts : List (turn_info F)) :
    ((fill_map 0 ts []).map Prod.fst).Nodup :=
  (fill_map_spec ts 0 [] (by simp)).1

/-- The map built by the first loop holds exactly the pushed entries. -/
theorem fill_map_entries (ts : List (turn_info F)) :
    (map_entries (fill_map 0 ts [])).Perm (pushed_entries 0 ts) := by
  have h := (fill_map_spec ts 0 [] (by simp)).2
  simpa [map_entries] using h

/-- Every entry of a vector of the map names an operation on the key segment. -/
theorem bucket_entry_on (ts : List (turn_info F))
    {it : segment_identifier × List turn_operation_index} (hit : it ∈ fill_map 0 ts [])
    {e : turn_operation_index} (he : e ∈ it.2) : entry_on ts it.1 e := by
  rw [← mem_pushed_entries_zero, ← (fill_map_entries ts).mem_iff]
  exact mem_map_entries.2 ⟨it, hit, rfl, he⟩

/-- No vector of the map holds an entry twice. -/
theorem bucket_nodup (ts : List (turn_info F))
    {it : segment_identifier × List turn_operation_index} (hit : it ∈ fill_map 0 ts []) :
    it.2.Nodup := by
  have h1 : (map_entries (fill_map 0 ts [])).Nodup :=
    (fill_map_entries ts).nodup_iff.2 (pushed_entries_nodup ts 0)
  exact List.Nodup.of_map _ ((bucket_sublist_entries hit).nodup h1)

/-- Every operation of the turn list is an entry of the vector of its segment. -/
theorem bucket_of_entry (ts : List (turn_info F)) {s : segment_identifier}
    {e : turn_operation_index} (he : entry_on ts s e) :
    ∃ it ∈ fill_map 0 ts [], it.1 = s ∧ e ∈ it.2 := by
  rw [← mem_pushed_entries_zero, ← (fill_map_entries ts).mem_iff] at he
  exact mem_map_entries.1 he

theorem bucket_unique (ts : List (turn_info F))
    {it it' : segment_identifier × List turn_operation_index}
    (h : it ∈ fill_map 0 ts []) (h' : it' ∈ fill_map 0 ts []) (hk : it.1 = it'.1) :
    it = it' :=
  List.inj_on_of_nodup_map (fill_map_keys ts) h h' hk

theorem mem_sort_map (ts : List (turn_info F)) (m : map_type)
    (it : segment_identifier × List turn_operation_index) :
    it ∈ sort_map ts m ↔
      ∃ it0 ∈ m, it = (it0.1, std_sort (less_by_fraction_and_type ts) it0.2) := by
  simp only [sort_map, List.mem_map]
  constructor
  · rintro ⟨it0, h0, rfl⟩; exact ⟨it0, h0, rfl⟩
  · rintro ⟨it0, h0, rfl⟩; exact ⟨it0, h0, rfl⟩

end

/-! ## The flag updates of the whole function -/

section
variable {F : Type} [LinearOrder F]

/-- Every flag update is made on an entry `y`, with an anchor `x` that is another
entry on the same segment. -/
theorem all_events_sound (ts : List (turn_info F)) (e : Nat × Bool)
    (he : e ∈ all_events ts) :
    ∃ x y s a', x ≠ y ∧ entry_on ts s x ∧ entry_on ts s y ∧ is_anchor ts x a'
      ∧ fires_on ts a' y e := by
  simp only [all_events, map_events, List.mem_flatMap] at he
  obtain ⟨it, hit, hev⟩ := he
  obtain ⟨it0, hit0, rfl⟩ := (mem_sort_map ts _ it).1 hit
  obtain ⟨x, y, a', hsub, hxa, hfire⟩ := bucket_events_sound ts _ e hev
  have hperm := std_sort_perm (less_by_fraction_and_type ts) it0.2
  have hnd : (std_sort (less_by_fraction_and_type ts) it0.2).Nodup :=
    hperm.nodup_iff.2 (bucket_nodup ts hit0)
  have hx : x ∈ it0.2 := hperm.mem_iff.1 (hsub.subset (by simp))
  have hy : y ∈ it0.2 := hperm.mem_iff.1 (hsub.subset (by simp))
  refine ⟨x, y, it0.1, a', ?_, bucket_entry_on ts hit0 hx, bucket_entry_on ts hit0 hy,
    hxa, hfire⟩
  intro hxy
  subst hxy
  exact List.nodup_iff_sublist.1 hnd x hsub

/-- Two different entries on one segment make the early return not happen. -/
theorem has_colocations_of_pair (ts : List (turn_info F)) {s : segment_identifier}
    {x y : turn_operation_index} (hx : entry_on ts s x) (hy : entry_on ts s y)
    (hxy : x ≠ y) : has_colocations (fill_map 0 ts []) = true := by
  obtain ⟨it, hit, hs, hxi⟩ := bucket_of_entry ts hx
  obtain ⟨it', hit', hs', hyi⟩ := bucket_of_entry ts hy
  have heq : it = it' := bucket_unique ts hit hit' (hs.trans hs'.symm)
  subst heq
  refine List.any_eq_true.2 ⟨it, hit, ?_⟩
  simp only [gt_iff_lt, decide_eq_true_eq]
  match h : it.2 with
  | [] => rw [h] at hxi; simp at hxi
  | [z] =>
    rw [h] at hxi hyi
    simp only [List.mem_singleton] at hxi hyi
    exact absurd (hxi.trans hyi.symm) hxy
  | _ :: _ :: _ => simp

/-- An entry `y` of a turn that is neither both-union nor both-continue, with
an entry `x` of a both-union turn on the same segment at the same fraction, is
flagged, with a both-union anchor on that segment at that fraction. -/
theorem all_events_complete (ts : List (turn_info F)) {s : segment_identifier}
    {x y : turn_operation_index} (hx : entry_on ts s x) (hy : entry_on ts s y)
    {tx ty : turn_info F} (htx : ts[x.turn_index]? = some tx)
    (hty : ts[y.turn_index]? = some ty)
    (hxu : tx.both operation_type.operation_union = true)
    (hnu : ty.both operation_type.operation_union = false)
    (hnc : ty.both operation_type.operation_continue = false)
    (hfr : (tx.operations x.op_index).fraction = (ty.operations y.op_index).fraction) :
    ∃ x' a' e, entry_on ts s x' ∧ is_anchor ts x' a' ∧ fires_on ts a' y e
      ∧ e ∈ all_events ts := by
  obtain ⟨it, hit, hs, hxi⟩ := bucket_of_entry ts hx
  obtain ⟨it', hit', hs', hyi⟩ := bucket_of_entry ts hy
  have heq : it = it' := bucket_unique ts hit hit' (hs.trans hs'.symm)
  subst heq
  have hperm := std_sort_perm (less_by_fraction_and_type ts) it.2
  have hvalid : ∀ z ∈ it.2, ∃ t, ts[z.turn_index]? = some t := by
    intro z hz
    obtain ⟨t, ht, _⟩ := bucket_entry_on ts hit hz
    exact ⟨t, ht⟩
  have hvalid' : ∀ z ∈ std_sort (less_by_fraction_and_type ts) it.2,
      ∃ t, ts[z.turn_index]? = some t := fun z hz => hvalid z (hperm.mem_iff.1 hz)
  obtain ⟨x', a', e, hx', hxa', hfire, he⟩ :=
    bucket_events_complete ts _ (bucket_sorted ts it.2 hvalid) x (hperm.mem_iff.2 hxi) tx htx
      hxu y (hperm.mem_iff.2 hyi) ty hty hnu hnc hfr hvalid'
  refine ⟨x', a', e, ?_, hxa', hfire, ?_⟩
  · rw [← hs]; exact bucket_entry_on ts hit (hperm.mem_iff.1 hx')
  · simp only [all_events, map_events, List.mem_flatMap]
    exact ⟨(it.1, std_sort (less_by_fraction_and_type ts) it.2),
      (mem_sort_map ts _ _).2 ⟨it, hit, rfl⟩, he⟩

theorem bucket_events_short (ts : List (turn_info F)) (l : List turn_operation_index)
    (hl : l.length ≤ 1) : bucket_events ts l = [] := by
  match l with
  | [] => rfl
  | [vit] =>
    simp only [bucket_events]
    cases ts[vit.turn_index]? <;> rfl
  | _ :: _ :: _ => simp at hl

/-- When the function returns early there is no flag update to make. -/
theorem all_events_of_no_colocations (ts : List (turn_info F))
    (h : has_colocations (fill_map 0 ts []) = false) : all_events ts = [] := by
  simp only [all_events, map_events, List.flatMap_eq_nil_iff]
  intro it hit
  obtain ⟨it0, hit0, rfl⟩ := (mem_sort_map ts _ it).1 hit
  apply bucket_events_short
  rw [(std_sort_perm _ _).length_eq]
  have := List.any_eq_false.1 h it0 hit0
  simpa using this

/-- The function `handle_colocations` writes the flag updates `all_events`. -/
theorem handle_colocations_apply (ts : List (turn_info F)) :
    handle_colocations ts = apply_events ts (all_events ts) := by
  rw [handle_colocations_eq]
  cases h : has_colocations (fill_map 0 ts []) with
  | true => rfl
  | false => rw [all_events_of_no_colocations ts h]; rfl

/-- Turn `i` after `handle_colocations`: its flags joined with the updates. -/
theorem handle_colocations_get (ts : List (turn_info F)) (i : Nat) :
    (handle_colocations ts)[i]? = (ts[i]?).map (flag_result (all_events ts) i) := by
  rw [handle_colocations_apply, apply_events_get]

theorem handle_colocations_key (ts : List (turn_info F)) :
    (handle_colocations ts).map turn_key = ts.map turn_key := by
  rw [handle_colocations_apply, apply_events_key]

theorem flag_result_nil (i : Nat) (t : turn_info F) : flag_result [] i t = t := by
  cases t; simp [flag_result]

theorem apply_events_nil (ts : List (turn_info F)) : apply_events ts [] = ts := rfl

end

/-! ## The claims -/

section
variable {F : Type} [LinearOrder F]

/-- C3. No-colocation invariant: when no segment identifier is the `seg_id` of
more than one operation (both operations of every turn counted),
`handle_colocations` returns the turn list unchanged. -/
theorem no_colocation_unchanged (ts : List (turn_info F))
    (h : (all_seg_ids ts).Nodup) : handle_colocations ts = ts := by
  have hno : has_colocations (fill_map 0 ts []) = false := by
    cases hc : has_colocations (fill_map 0 ts []) with
    | false => rfl
    | true =>
      exfalso
      obtain ⟨it, hit, hlen⟩ := List.any_eq_true.1 hc
      simp only [gt_iff_lt, decide_eq_true_eq] at hlen
      have hnd := bucket_nodup ts hit
      match hb : it.2 with
      | [] => rw [hb] at hlen; simp at hlen
      | [_] => rw [hb] at hlen; simp at hlen
      | a :: b :: rest =>
        rw [hb] at hnd
        have hab : a ≠ b := by
          intro heq
          rw [heq] at hnd
          simp at hnd
        have ha : entry_on ts it.1 a := bucket_entry_on ts hit (by rw [hb]; simp)
        have hb' : entry_on ts it.1 b := bucket_entry_on ts hit (by rw [hb]; simp)
        rw [← mem_pushed_entries_zero] at ha hb'
        have hinj := List.inj_on_of_nodup_map
          (by rw [pushed_entries_fst]; exact h : ((pushed_entries 0 ts).map Prod.fst).Nodup)
          ha hb' rfl
        exact hab (Prod.mk.inj hinj).2
  rw [handle_colocations_eq, hno]
  rfl

/-- C4. Idempotence: running `handle_colocations` on its own output changes
nothing. -/
theorem handle_colocations_idempotent (ts : List (turn_info F)) :
    handle_colocations (handle_colocations ts) = handle_colocations ts := by
  apply List.ext_getElem?
  intro i
  rw [handle_colocations_get (handle_colocations ts),
    all_events_congr (handle_colocations_key ts), handle_colocations_get ts]
  cases ts[i]? with
  | none => rfl
  | some t =>
    cases t
    simp [flag_result, Bool.or_assoc]

/-- C6. Frame: the result has the length of the input and turn `i` keeps its
two operations (kind, segment identifier and fraction of each slot); only the
flags `discarded` and `colocated` can differ. -/
theorem handle_colocations_frame (ts : List (turn_info F)) :
    (handle_colocations ts).length = ts.length
      ∧ ∀ i : Nat,
        ((handle_colocations ts)[i]?).map (fun t => (t.operations 0, t.operations 1))
          = (ts[i]?).map (fun t => (t.operations 0, t.operations 1)) := by
  have hk := handle_colocations_key ts
  refine ⟨?_, fun i => key_lookup hk i⟩
  have := congrArg List.length hk
  simpa using this

/-- A both-union or both-continue turn is never flagged. -/
theorem turn_unchanged_of_both (ts : List (turn_info F)) (i : Nat)
    (t : turn_info F) (hi : ts[i]? = some t)
    (hb : t.both operation_type.operation_union = true
      ∨ t.both operation_type.operation_continue = true) :
    (handle_colocations ts)[i]? = some t := by
  rw [handle_colocations_get, hi]
  have hnone : ∀ e ∈ all_events ts, e.1 ≠ i := by
    intro e he hei
    obtain ⟨x, y, s, a', _, _, _, _, ty, hty, heq, _, hnu, hnc, _⟩ := all_events_sound ts e he
    have : y.turn_index = i := by rw [← hei, heq]
    rw [this, hi] at hty
    cases hty
    rcases hb with hb | hb
    · rw [hb] at hnu; cases hnu
    · rw [hb] at hnc; cases hnc
  have h1 : (all_events ts).any (fun e => decide (e.1 = i)) = false := by
    rw [List.any_eq_false]
    intro e he
    simpa using hnone e he
  have h2 : (all_events ts).any (fun e => decide (e.1 = i) && e.2) = false := by
    rw [List.any_eq_false]
    intro e he
    simp [hnone e he]
  cases t
  simp [flag_result, h1, h2]

/-- C7. No dominance: a turn that is both-union or both-continue comes out of
`handle_colocations` exactly as it went in, both flags included. -/
theorem both_union_or_continue_unchanged (ts : List (turn_info F)) (i : Nat)
    (t : turn_info F) (hi : ts[i]? = some t)
    (hb : t.both operation_type.operation_union = true
      ∨ t.both operation_type.operation_continue = true) :
    (handle_colocations ts)[i]? = some t :=
  turn_unchanged_of_both ts i t hi hb

/-- C8. Distinct fractions: when any two different operation entries on one
segment identifier have different fractions, `handle_colocations` changes
nothing. -/
theorem distinct_fractions_unchanged (ts : List (turn_info F))
    (h : ∀ a b : turn_operation_index, ∀ ta tb : turn_info F,
      valid_index ts a → valid_index ts b → a ≠ b →
      ts[a.turn_index]? = some ta → ts[b.turn_index]? = some tb →
      (ta.operations a.op_index).seg_id = (tb.operations b.op_index).seg_id →
      (ta.operations a.op_index).fraction ≠ (tb.operations b.op_index).fraction) :
    handle_colocations ts = ts := by
  have hnil : all_events ts = [] := by
    apply List.eq_nil_iff_forall_not_mem.2
    intro e he
    obtain ⟨x, y, s, a', hxy, ⟨tx, htx, hxo, hxs⟩, ⟨ty, hty, hyo, hys⟩, hxa,
      ty', hty', _, _, _, _, hfr⟩ := all_events_sound ts e he
    rw [hty] at hty'
    cases hty'
    have ha' := is_anchor_unique htx hxa
    rw [ha'] at hfr
    have hxv : valid_index ts x := ⟨(List.getElem?_eq_some.1 htx).1, hxo⟩
    have hyv : valid_index ts y := ⟨(List.getElem?_eq_some.1 hty).1, hyo⟩
    exact h x y tx ty hxv hyv hxy htx hty (hxs.trans hys.symm) hfr
  rw [handle_colocations_apply, hnil]
  rfl

/-- C9. Strict weak ordering: on valid operation indices the comparator is
transitive, asymmetric, irreflexive, and incomparability is transitive. -/
theorem less_strict_weak_order (ts : List (turn_info F)) (a b c : turn_operation_index)
    (ha : valid_index ts a) (hb : valid_index ts b) (hc : valid_index ts c) :
    (less_by_fraction_and_type ts a b = true → less_by_fraction_and_type ts b c = true →
        less_by_fraction_and_type ts a c = true)
      ∧ (less_by_fraction_and_type ts a b = true → less_by_fraction_and_type ts b a = false)
      ∧ less_by_fraction_and_type ts a a = false
      ∧ (less_by_fraction_and_type ts a b = false → less_by_fraction_and_type ts b a = false →
          less_by_fraction_and_type ts b c = false → less_by_fraction_and_type ts c b = false →
          less_by_fraction_and_type ts a c = false ∧ less_by_fraction_and_type ts c a = false) := by
  obtain ⟨ta, hta⟩ : ∃ t, ts[a.turn_index]? = some t := ⟨_, List.getElem?_eq_getElem ha.1⟩
  obtain ⟨tb, htb⟩ : ∃ t, ts[b.turn_index]? = some t := ⟨_, List.getElem?_eq_getElem hb.1⟩
  obtain ⟨tc, htc⟩ : ∃ t, ts[c.turn_index]? = some t := ⟨_, List.getElem?_eq_getElem hc.1⟩
  refine ⟨?_, ?_, ?_, ?_⟩
  · intro h1 h2
    exact (less_iff_rank hta htc).2
      (lt_trans ((less_iff_rank hta htb).1 h1) ((less_iff_rank htb htc).1 h2))
  · exact less_asymm a b ⟨_, hta⟩ ⟨_, htb⟩
  · exact (less_eq_false_iff_rank hta hta).2 (le_refl _)
  · intro h1 h2 h3 h4
    exact ⟨less_neg_trans c b a ⟨_, htc⟩ ⟨_, htb⟩ ⟨_, hta⟩ h3 h1,
      less_neg_trans a b c ⟨_, hta⟩ ⟨_, htb⟩ ⟨_, htc⟩ h2 h4⟩

end

/-! ## Which turns are flagged -/

section
variable {F : Type} [LinearOrder F]

theorem any_index_iff (E : List (Nat × Bool)) (i : Nat) :
    E.any (fun e => decide (e.1 = i)) = true ↔ ∃ d, (i, d) ∈ E := by
  rw [List.any_eq_true]
  constructor
  · rintro ⟨⟨i', d⟩, he, hi⟩
    simp only [decide_eq_true_eq] at hi
    subst hi
    exact ⟨d, he⟩
  · rintro ⟨d, he⟩
    exact ⟨(i, d), he, by simp⟩

theorem any_discard_iff (E : List (Nat × Bool)) (i : Nat) :
    E.any (fun e => decide (e.1 = i) && e.2) = true ↔ (i, true) ∈ E := by
  rw [List.any_eq_true]
  constructor
  · rintro ⟨⟨i', d⟩, he, hi⟩
    simp only [Bool.and_eq_true, decide_eq_true_eq] at hi
    obtain ⟨h1, h2⟩ := hi
    subst h1; subst h2
    exact he
  · intro he
    exact ⟨(i, true), he, by simp⟩

/-- Soundness of the flag updates: an update of turn `i` means a both-union turn
of the list shares a location with turn `i`, and the update discards only if the
paired segments pass the discard test. -/
theorem event_sound (ts : List (turn_info F)) (i : Nat) (t : turn_info F)
    (hi : ts[i]? = some t) (d : Bool) (he : (i, d) ∈ all_events ts) :
    t.both operation_type.operation_union = false
      ∧ t.both operation_type.operation_continue = false
      ∧ ∃ u ∈ ts, u.both operation_type.operation_union = true
        ∧ ∃ j k, shares_location u t j k
          ∧ d = discard_test (u.operations (1 - j)).seg_id (t.operations (1 - k)).seg_id := by
  obtain ⟨x, y, s, a', _, ⟨tx, htx, hxo, hxs⟩, ⟨ty, hty, hyo, hys⟩, hxa,
    ty', hty', heq, huu, hnu, hnc, hfr⟩ := all_events_sound ts (i, d) he
  rw [hty] at hty'
  cases hty'
  have ha' := is_anchor_unique htx hxa
  subst ha'
  simp only [Prod.mk.injEq] at heq
  obtain ⟨hiy, hd⟩ := heq
  rw [hiy, hty] at hi
  cases hi
  exact ⟨hnu, hnc, tx, List.mem_iff_getElem?.2 ⟨_, htx⟩, huu, x.op_index, y.op_index,
    ⟨hxo, hyo, hxs.trans hys.symm, hfr⟩, hd⟩

/-- Completeness of the flag updates: if a both-union turn `u` shares a location
with turn `i`, which is neither both-union nor both-continue, then turn `i` is
flagged, by a both-union turn `u'` that shares the same location. -/
theorem event_complete (ts : List (turn_info F)) (i : Nat) (t u : turn_info F)
    (hi : ts[i]? = some t) (hu : u ∈ ts)
    (huu : u.both operation_type.operation_union = true)
    (hnu : t.both operation_type.operation_union = false)
    (hnc : t.both operation_type.operation_continue = false)
    (j k : Nat) (hsh : shares_location u t j k) :
    ∃ u' ∈ ts, u'.both operation_type.operation_union = true
      ∧ ∃ j', shares_location u' t j' k
        ∧ (i, discard_test (u'.operations (1 - j')).seg_id (t.operations (1 - k)).seg_id)
            ∈ all_events ts := by
  obtain ⟨iu, hiu⟩ := List.mem_iff_getElem?.1 hu
  obtain ⟨hj, hk, hseg, hfr⟩ := hsh
  have hx : entry_on ts (t.operations k).seg_id ⟨iu, j⟩ := ⟨u, hiu, hj, hseg⟩
  have hy : entry_on ts (t.operations k).seg_id ⟨i, k⟩ := ⟨t, hi, hk, rfl⟩
  obtain ⟨x', a', e, ⟨tx', htx', hxo', hxs'⟩, hxa', ⟨ty, hty, heq, hauu, _, _, hafr⟩, he⟩ :=
    all_events_complete ts hx hy hiu hi huu hnu hnc hfr
  have hty' : ts[i]? = some ty := hty
  rw [hi] at hty'
  cases hty'
  have ha' := is_anchor_unique htx' hxa'
  subst ha'
  refine ⟨tx', List.mem_iff_getElem?.2 ⟨_, htx'⟩, hauu, x'.op_index,
    ⟨hxo', hk, hxs', hafr⟩, ?_⟩
  rw [heq] at he
  exact he

/-- The `colocated` flag is raised exactly for the turns that are neither
both-union nor both-continue and share a location with a both-union turn. -/
theorem colocated_event_iff (ts : List (turn_info F)) (i : Nat) (t : turn_info F)
    (hi : ts[i]? = some t) :
    (all_events ts).any (fun e => decide (e.1 = i)) = true ↔ colocation_fires ts t := by
  rw [any_index_iff]
  constructor
  · rintro ⟨d, he⟩
    obtain ⟨hnu, hnc, u, hu, huu, j, k, hsh, _⟩ := event_sound ts i t hi d he
    exact ⟨hnu, hnc, u, hu, huu, j, k, hsh⟩
  · rintro ⟨hnu, hnc, u, hu, huu, j, k, hsh⟩
    obtain ⟨u', _, _, j', _, he⟩ := event_complete ts i t u hi hu huu hnu hnc j k hsh
    exact ⟨_, he⟩

/-- A raised `discarded` flag comes with a both-union turn whose paired segment
passes the discard test. -/
theorem discarded_event_sound (ts : List (turn_info F)) (i : Nat) (t : turn_info F)
    (hi : ts[i]? = some t)
    (h : (all_events ts).any (fun e => decide (e.1 = i) && e.2) = true) :
    discard_fires ts t := by
  rw [any_discard_iff] at h
  obtain ⟨hnu, hnc, u, hu, huu, j, k, hsh, hd⟩ := event_sound ts i t hi true h
  exact ⟨hnu, hnc, u, hu, huu, j, k, hsh, hd.symm⟩

/-- When every both-union turn at the location of slot `k` passes the discard
test, the `discarded` flag of a turn that is neither both-union nor
both-continue is raised. -/
theorem discarded_event_of_all (ts : List (turn_info F)) (i : Nat) (t : turn_info F)
    (hi : ts[i]? = some t)
    (hnu : t.both operation_type.operation_union = false)
    (hnc : t.both operation_type.operation_continue = false)
    (k : Nat) (h : anchors_all_discard ts t k) :
    (all_events ts).any (fun e => decide (e.1 = i) && e.2) = true := by
  rw [any_discard_iff]
  obtain ⟨⟨u, hu, huu, j, hsh⟩, hall⟩ := h
  obtain ⟨u', hu', huu', j', hsh', he⟩ := event_complete ts i t u hi hu huu hnu hnc j k hsh
  rw [hall u' hu' huu' j' hsh'] at he
  exact he

/-- Without a both-union turn that passes the discard test, the `discarded`
flag is not raised. -/
theorem no_discarded_event (ts : List (turn_info F)) (i : Nat) (t : turn_info F)
    (hi : ts[i]? = some t) (h : ¬ discard_fires ts t) :
    (all_events ts).any (fun e => decide (e.1 = i) && e.2) = false := by
  cases hany : (all_events ts).any (fun e => decide (e.1 = i) && e.2) with
  | false => rfl
  | true => exact absurd (discarded_event_sound ts i t hi hany) h

theorem discard_test_congr (p q r : segment_identifier)
    (hm : p.multi_index = q.multi_index) (hr : p.ring_index = -1 ↔ q.ring_index = -1) :
    discard_test p r = discard_test q r := by
  simp only [discard_test, hm, hr]

/-- When the both-union turns that share a location agree on what the discard
test reads of them, a turn either has no both-union turn that passes the
discard test, or all of them pass it at one of its slots. -/
theorem all_discard_of_anchors_agree (ts : List (turn_info F)) (hag : anchors_agree ts)
    (t : turn_info F) : ¬ discard_fires ts t ∨ ∃ k, anchors_all_discard ts t k := by
  by_cases h : discard_fires ts t
  · right
    obtain ⟨_, _, u, hu, huu, j, k, hsh, hd⟩ := h
    refine ⟨k, ⟨u, hu, huu, j, hsh⟩, ?_⟩
    intro v hv hvu j' hsh'
    have hloc : shares_location v u j' j :=
      ⟨hsh'.1, hsh.1, hsh'.2.2.1.trans hsh.2.2.1.symm, hsh'.2.2.2.trans hsh.2.2.2.symm⟩
    obtain ⟨hm, hr⟩ := hag v hv u hu hvu huu j' j hloc
    rw [discard_test_congr _ _ _ hm hr]
    exact hd
  · exact Or.inl h

theorem colocation_fires_perm {ts ts' : List (turn_info F)} (hp : ts.Perm ts')
    (t : turn_info F) : colocation_fires ts t ↔ colocation_fires ts' t := by
  simp only [colocation_fires, hp.mem_iff]

theorem discard_fires_perm {ts ts' : List (turn_info F)} (hp : ts.Perm ts')
    (t : turn_info F) : discard_fires ts t ↔ discard_fires ts' t := by
  simp only [discard_fires, hp.mem_iff]

theorem anchors_all_discard_perm {ts ts' : List (turn_info F)} (hp : ts.Perm ts')
    (t : turn_info F) (k : Nat) :
    anchors_all_discard ts t k ↔ anchors_all_discard ts' t k := by
  simp only [anchors_all_discard, hp.mem_iff]

theorem colocated_after (ts : List (turn_info F)) (i : Nat) (t : turn_info F)
    (hi : ts[i]? = some t) :
    ((handle_colocations ts)[i]?).map turn_info.colocated
      = some (t.colocated || (all_events ts).any (fun e => decide (e.1 = i))) := by
  rw [handle_colocations_get, hi]
  rfl

theorem discarded_after (ts : List (turn_info F)) (i : Nat) (t : turn_info F)
    (hi : ts[i]? = some t) :
    ((handle_colocations ts)[i]?).map turn_info.discarded
      = some (t.discarded || (all_events ts).any (fun e => decide (e.1 = i) && e.2)) := by
  rw [handle_colocations_get, hi]
  rfl

theorem list_eq_pair {α : Type} (l : List α) (a b : α) (hlen : l.length = 2)
    (h0 : l[0]? = some a) (h1 : l[1]? = some b) : l = [a, b] := by
  match l, hlen with
  | [x, y], _ =>
    simp only [List.getElem?_cons_zero, Option.some.injEq] at h0
    simp only [List.getElem?_cons_succ, List.getElem?_cons_zero, Option.some.injEq] at h1
    rw [h0, h1]

end

/-! ## Two turns at one location -/

section
variable {F : Type} [LinearOrder F]

theorem length_handle_colocations (ts : List (turn_info F)) :
    (handle_colocations ts).length = ts.length := by
  have := congrArg List.length (handle_colocations_key ts)
  simpa using this

theorem discard_test_of_same_segment (A B : turn_info F) (j k j' : Nat)
    (hj : j < 2) (hj' : j' < 2)
    (hseg : (A.operations j).seg_id = (B.operations k).seg_id)
    (hseg' : (A.operations j').seg_id = (B.operations k).seg_id)
    (hring : (A.operations (1 - j)).seg_id.ring_index = -1)
    (hmulti : (B.operations (1 - k)).seg_id.multi_index
      = (A.operations (1 - j)).seg_id.multi_index)
    (hBring : (B.operations (1 - k)).seg_id.ring_index ≥ 0) :
    discard_test (A.operations (1 - j')).seg_id (B.operations (1 - k)).seg_id = true := by
  have hAA : (A.operations j').seg_id = (A.operations j).seg_id := hseg'.trans hseg.symm
  have hP : (A.operations (1 - j')).seg_id = (A.operations (1 - j)).seg_id := by
    interval_cases j <;> interval_cases j' <;>
      simp only [turn_info.operations, Nat.sub_zero, Nat.sub_self, if_true,
        one_ne_zero, if_false] at hAA ⊢
    · exact hAA.symm
    · exact hAA.symm
  rw [hP]
  simp only [discard_test, Bool.and_eq_true, decide_eq_true_eq]
  exact ⟨⟨hmulti.symm, hring⟩, hBring⟩

theorem discard_test_of_other_part (A B : turn_info F) (j k j' k' : Nat)
    (hj : j < 2) (hk : k < 2) (hj' : j' < 2) (hk' : k' < 2)
    (hseg : (A.operations j).seg_id = (B.operations k).seg_id)
    (hseg' : (A.operations j').seg_id = (B.operations k').seg_id)
    (hring : (A.operations (1 - j)).seg_id.ring_index = -1)
    (hmulti : (B.operations (1 - k)).seg_id.multi_index
      ≠ (A.operations (1 - j)).seg_id.multi_index)
    (hBring : (B.operations (1 - k)).seg_id.ring_index ≥ 0) :
    discard_test (A.operations (1 - j')).seg_id (B.operations (1 - k')).seg_id = false := by
  have m1 := congrArg segment_identifier.multi_index hseg
  have r1 := congrArg segment_identifier.ring_index hseg
  have m2 := congrArg segment_identifier.multi_index hseg'
  have r2 := congrArg segment_identifier.ring_index hseg'
  cases hd : discard_test (A.operations (1 - j')).seg_id (B.operations (1 - k')).seg_id with
  | false => rfl
  | true =>
    exfalso
    simp only [discard_test, Bool.and_eq_true, decide_eq_true_eq] at hd
    obtain ⟨⟨d1, d2⟩, d3⟩ := hd
    interval_cases j <;> interval_cases k <;> interval_cases j' <;> interval_cases k' <;>
      simp only [turn_info.operations, Nat.sub_zero, Nat.sub_self, if_true,
        one_ne_zero, if_false] at * <;> omega

/-- The turn `B` of index `i`, sharing a location with the only both-union turn
`A` of the list, is flagged colocated and discarded when the paired segments
are the exterior ring and an interior ring of one part. -/
theorem flagged_discarded (ts : List (turn_info F)) (i : Nat) (A B : turn_info F)
    (hi : ts[i]? = some B) (hA : A ∈ ts)
    (honly : ∀ u ∈ ts, u.both operation_type.operation_union = true → u = A)
    (j k : Nat) (hsh : shares_location A B j k)
    (hAu : A.both operation_type.operation_union = true)
    (hBu : B.both operation_type.operation_union = false)
    (hBc : B.both operation_type.operation_continue = false)
    (hring : (A.operations (1 - j)).seg_id.ring_index = -1)
    (hmulti : (B.operations (1 - k)).seg_id.multi_index
      = (A.operations (1 - j)).seg_id.multi_index)
    (hBring : (B.operations (1 - k)).seg_id.ring_index ≥ 0) :
    (handle_colocations ts)[i]? = some { B with colocated := true, discarded := true } := by
  obtain ⟨u', hu', huu', j', hsh', he⟩ := event_complete ts i B A hi hA hAu hBu hBc j k hsh
  have hu'A := honly u' hu' huu'
  subst hu'A
  rw [discard_test_of_same_segment u' B j k j' hsh.1 hsh'.1 hsh.2.2.1 hsh'.2.2.1
    hring hmulti hBring] at he
  have h1 : (all_events ts).any (fun e => decide (e.1 = i)) = true :=
    (any_index_iff _ i).2 ⟨true, he⟩
  have h2 : (all_events ts).any (fun e => decide (e.1 = i) && e.2) = true :=
    (any_discard_iff _ i).2 he
  rw [handle_colocations_get, hi]
  cases B
  simp [flag_result, h1, h2]

/-- The turn `B` of index `i`, sharing a location with the only both-union turn
`A` of the list, is flagged colocated and keeps its `discarded` flag when its
paired segment is on another part than the paired segment of `A`. -/
theorem flagged_kept (ts : List (turn_info F)) (i : Nat) (A B : turn_info F)
    (hi : ts[i]? = some B) (hA : A ∈ ts)
    (honly : ∀ u ∈ ts, u.both operation_type.operation_union = true → u = A)
    (j k : Nat) (hsh : shares_location A B j k)
    (hAu : A.both operation_type.operation_union = true)
    (hBu : B.both operation_type.operation_union = false)
    (hBc : B.both operation_type.operation_continue = false)
    (hring : (A.operations (1 - j)).seg_id.ring_index = -1)
    (hmulti : (B.operations (1 - k)).seg_id.multi_index
      ≠ (A.operations (1 - j)).seg_id.multi_index)
    (hBring : (B.operations (1 - k)).seg_id.ring_index ≥ 0) :
    (handle_colocations ts)[i]? = some { B with colocated := true } := by
  have h1 : (all_events ts).any (fun e => decide (e.1 = i)) = true :=
    (colocated_event_iff ts i B hi).2 ⟨hBu, hBc, A, hA, hAu, j, k, hsh⟩
  have h2 : (all_events ts).any (fun e => decide (e.1 = i) && e.2) = false := by
    cases h : (all_events ts).any (fun e => decide (e.1 = i) && e.2) with
    | false => rfl
    | true =>
      exfalso
      obtain ⟨_, _, u, hu, huu, j', k', hsh', hd⟩ := discarded_event_sound ts i B hi h
      have huA := honly u hu huu
      subst huA
      rw [discard_test_of_other_part u B j k j' k' hsh.1 hsh.2.1 hsh'.1 hsh'.2.1
        hsh.2.2.1 hsh'.2.2.1 hring hmulti hBring] at hd
      cases hd
  rw [handle_colocations_get, hi]
  cases B
  simp [flag_result, h1, h2]

theorem only_union_pair (A B : turn_info F)
    (hBu : B.both operation_type.operation_union = false) (ts : List (turn_info F))
    (hts : ∀ u ∈ ts, u = A ∨ u = B) :
    ∀ u ∈ ts, u.both operation_type.operation_union = true → u = A := by
  intro u hu huu
  rcases hts u hu with h | h
  · exact h
  · rw [h, hBu] at huu
    cases huu

end

/-! ## The claims on scenarios, order and the comparator -/

section
variable {F : Type} [LinearOrder F]

/-- C1. Discard scenario: for a turn list of exactly two turns `A` and `B`, in
either order, where slot `j` of `A` and slot `k` of `B` lie on the same segment
identifier with equal fractions, `A` is both-union, `B` is neither both-union
nor both-continue, the paired operation of `A` lies on ring `-1` and the paired
operation of `B` on a ring `>= 0` of the same part: after `handle_colocations`
`B` is colocated and discarded and `A` is unchanged. -/
theorem discard_scenario (A B : turn_info F) (j k : Nat) (hj : j < 2) (hk : k < 2)
    (hseg : (A.operations j).seg_id = (B.operations k).seg_id)
    (hfr : (A.operations j).fraction = (B.operations k).fraction)
    (hAu : A.both operation_type.operation_union = true)
    (hBu : B.both operation_type.operation_union = false)
    (hBc : B.both operation_type.operation_continue = false)
    (hring : (A.operations (1 - j)).seg_id.ring_index = -1)
    (hmulti : (B.operations (1 - k)).seg_id.multi_index
      = (A.operations (1 - j)).seg_id.multi_index)
    (hBring : (B.operations (1 - k)).seg_id.ring_index ≥ 0) :
    handle_colocations [A, B] = [A, { B with colocated := true, discarded := true }]
      ∧ handle_colocations [B, A]
        = [{ B with colocated := true, discarded := true }, A] := by
  have hsh : shares_location A B j k := ⟨hj, hk, hseg, hfr⟩
  constructor
  · apply list_eq_pair _ _ _ (length_handle_colocations [A, B])
    · exact turn_unchanged_of_both [A, B] 0 A rfl (Or.inl hAu)
    · exact flagged_discarded [A, B] 1 A B rfl (by simp)
        (only_union_pair A B hBu _ (by simp)) j k hsh hAu hBu hBc hring hmulti hBring
  · apply list_eq_pair _ _ _ (length_handle_colocations [B, A])
    · exact flagged_discarded [B, A] 0 A B rfl (by simp)
        (only_union_pair A B hBu _ (by simp)) j k hsh hAu hBu hBc hring hmulti
        hBring
    · exact turn_unchanged_of_both [B, A] 1 A rfl (Or.inl hAu)

/-- Witness of C1 on the example turns `ex_A` and `ex_B`. -/
theorem discard_scenario_witness :
    handle_colocations [ex_A, ex_B]
        = [ex_A, { ex_B with colocated := true, discarded := true }]
      ∧ handle_colocations [ex_B, ex_A]
        = [{ ex_B with colocated := true, discarded := true }, ex_A] :=
  discard_scenario ex_A ex_B 0 0 (by decide) (by decide) (by decide) (by decide)
    (by decide) (by decide) (by decide) (by decide) (by decide) (by decide)

/-- C2. Colocated-but-kept scenario: as the discard scenario, but the paired
operation of `B` lies on another part than the paired operation of `A`: after
`handle_colocations` `B` is colocated and its `discarded` flag is as on input. -/
theorem colocated_kept_scenario (A B : turn_info F) (j k : Nat) (hj : j < 2) (hk : k < 2)
    (hseg : (A.operations j).seg_id = (B.operations k).seg_id)
    (hfr : (A.operations j).fraction = (B.operations k).fraction)
    (hAu : A.both operation_type.operation_union = true)
    (hBu : B.both operation_type.operation_union = false)
    (hBc : B.both operation_type.operation_continue = false)
    (hring : (A.operations (1 - j)).seg_id.ring_index = -1)
    (hmulti : (B.operations (1 - k)).seg_id.multi_index
      ≠ (A.operations (1 - j)).seg_id.multi_index)
    (hBring : (B.operations (1 - k)).seg_id.ring_index ≥ 0) :
    handle_colocations [A, B] = [A, { B with colocated := true }]
      ∧ handle_colocations [B, A] = [{ B with colocated := true }, A] := by
  have hsh : shares_location A B j k := ⟨hj, hk, hseg, hfr⟩
  constructor
  · apply list_eq_pair _ _ _ (length_handle_colocations [A, B])
    · exact turn_unchanged_of_both [A, B] 0 A rfl (Or.inl hAu)
    · exact flagged_kept [A, B] 1 A B rfl (by simp)
        (only_union_pair A B hBu _ (by simp)) j k hsh hAu hBu hBc hring hmulti hBring
  · apply list_eq_pair _ _ _ (length_handle_colocations [B, A])
    · exact flagged_kept [B, A] 0 A B rfl (by simp)
        (only_union_pair A B hBu _ (by simp)) j k hsh hAu hBu hBc hring hmulti
        hBring
    · exact turn_unchanged_of_both [B, A] 1 A rfl (Or.inl hAu)

/-- Witness of C2 on the example turns `ex_A` and `ex_B_far`. -/
theorem colocated_kept_scenario_witness :
    handle_colocations [ex_A, ex_B_far] = [ex_A, { ex_B_far with colocated := true }]
      ∧ handle_colocations [ex_B_far, ex_A] = [{ ex_B_far with colocated := true }, ex_A] :=
  colocated_kept_scenario ex_A ex_B_far 0 0 (by decide) (by decide) (by decide) (by decide)
    (by decide) (by decide) (by decide) (by decide) (by decide) (by decide)

/-- Witness of C3: the turns `ex_B` and `ex_D` lie on four different segments. -/
theorem no_colocation_unchanged_witness :
    (all_seg_ids [ex_B, ex_D]).Nodup ∧ handle_colocations [ex_B, ex_D] = [ex_B, ex_D] :=
  ⟨by decide, no_colocation_unchanged [ex_B, ex_D] (by decide)⟩

/-- Counterexample to C5: the turns `ex_A` and `ex_A_hole` are both-union at the
location of `ex_B`; with `ex_A` first `ex_B` is discarded, with `ex_A_hole`
first it is not. -/
theorem order_dependence_counterexample :
    List.Perm [ex_A_hole, ex_A, ex_B] [ex_A, ex_A_hole, ex_B]
      ∧ handle_colocations [ex_A, ex_A_hole, ex_B]
        = [ex_A, ex_A_hole, { ex_B with colocated := true, discarded := true }]
      ∧ handle_colocations [ex_A_hole, ex_A, ex_B]
        = [ex_A_hole, ex_A, { ex_B with colocated := true, discarded := false }] :=
  ⟨List.Perm.swap _ _ _, by decide, by decide⟩

/-- C5, amended. Order-independence: for a turn list and any permutation of it,
a turn has the same final `colocated` flag in both results; it has the same
final `discarded` flag too when it is discarded on input, or no both-union turn
that shares a location with it passes the discard test against it, or at one of
its slots a both-union turn shares the location and every both-union turn that
shares it passes the discard test. -/
theorem flags_order_independent (ts ts' : List (turn_info F)) (hp : ts.Perm ts')
    (i i' : Nat) (t : turn_info F) (hi : ts[i]? = some t) (hi' : ts'[i']? = some t) :
    ((handle_colocations ts)[i]?).map turn_info.colocated
        = ((handle_colocations ts')[i']?).map turn_info.colocated
      ∧ (t.discarded = true ∨ ¬ discard_fires ts t ∨ (∃ k, anchors_all_discard ts t k) →
        ((handle_colocations ts)[i]?).map turn_info.discarded
          = ((handle_colocations ts')[i']?).map turn_info.discarded) := by
  constructor
  · rw [colocated_after ts i t hi, colocated_after ts' i' t hi']
    congr 2
    rw [Bool.eq_iff_iff, colocated_event_iff ts i t hi, colocated_event_iff ts' i' t hi']
    exact colocation_fires_perm hp t
  · intro h
    rw [discarded_after ts i t hi, discarded_after ts' i' t hi']
    rcases h with hd | hno | ⟨k, hall⟩
    · rw [hd, Bool.true_or, Bool.true_or]
    · rw [no_discarded_event ts i t hi hno,
        no_discarded_event ts' i' t hi' (fun hf => hno ((discard_fires_perm hp t).2 hf))]
    · by_cases hb : t.both operation_type.operation_union = false
          ∧ t.both operation_type.operation_continue = false
      · rw [discarded_event_of_all ts i t hi hb.1 hb.2 k hall,
          discarded_event_of_all ts' i' t hi' hb.1 hb.2 k
            ((anchors_all_discard_perm hp t k).1 hall)]
      · rw [no_discarded_event ts i t hi (fun hf => hb ⟨hf.1, hf.2.1⟩),
          no_discarded_event ts' i' t hi' (fun hf => hb ⟨hf.1, hf.2.1⟩)]

theorem ex_anchors_all_discard : anchors_all_discard [ex_A, ex_A_vertex, ex_B] ex_B 0 := by
  refine ⟨⟨ex_A, by simp, by decide, 0, by decide, by decide, by decide, by decide⟩, ?_⟩
  intro u hu huu j hsh
  obtain ⟨hj, _, hseg, _⟩ := hsh
  simp only [List.mem_cons, List.mem_singleton, List.not_mem_nil, or_false] at hu
  rcases hu with rfl | rfl | rfl
  · interval_cases j
    · decide
    · exact absurd hseg (by decide)
  · interval_cases j
    · decide
    · exact absurd hseg (by decide)
  · exact absurd huu (by decide)

/-- Witness of the amended C5: two both-union turns with different paired
segments on the exterior ring of part 0, in both orders. -/
theorem flags_order_independent_witness :
    ((handle_colocations [ex_A, ex_A_vertex, ex_B])[2]?).map turn_info.colocated
        = ((handle_colocations [ex_A_vertex, ex_A, ex_B])[2]?).map turn_info.colocated
      ∧ ((handle_colocations [ex_A, ex_A_vertex, ex_B])[2]?).map turn_info.discarded
        = ((handle_colocations [ex_A_vertex, ex_A, ex_B])[2]?).map turn_info.discarded :=
  ⟨(flags_order_independent [ex_A, ex_A_vertex, ex_B] [ex_A_vertex, ex_A, ex_B]
      (List.Perm.swap _ _ _) 2 2 ex_B rfl rfl).1,
    (flags_order_independent [ex_A, ex_A_vertex, ex_B] [ex_A_vertex, ex_A, ex_B]
      (List.Perm.swap _ _ _) 2 2 ex_B rfl rfl).2
      (Or.inr (Or.inr ⟨0, ex_anchors_all_discard⟩))⟩

/-- Witness of C7: the both-union turn `ex_A` next to `ex_B`. -/
theorem both_union_or_continue_unchanged_witness :
    (handle_colocations [ex_A, ex_B])[0]? = some ex_A :=
  both_union_or_continue_unchanged [ex_A, ex_B] 0 ex_A rfl (Or.inl (by decide))

/-- Witness of C8: `ex_A` at 0.5 and `ex_C` at 0.7 on the shared segment. -/
theorem distinct_fractions_unchanged_witness :
    handle_colocations [ex_A, ex_C] = [ex_A, ex_C] :=
  distinct_fractions_unchanged [ex_A, ex_C] (by
    rintro ⟨ai, ao⟩ ⟨bi, bo⟩ ta tb ⟨ha1, ha2⟩ ⟨hb1, hb2⟩ hne hta htb hseg
    simp only [List.length_cons, List.length_nil] at ha1 hb1
    simp only at ha2 hb2 hta htb hseg ⊢
    interval_cases ai <;> interval_cases ao <;> interval_cases bi <;> interval_cases bo <;>
      simp only [List.getElem?_cons_zero, List.getElem?_cons_succ, Option.some.injEq]
        at hta htb <;>
      subst hta <;> subst htb <;>
      first
        | exact absurd rfl hne
        | (revert hseg; decide))

/-- Witness of C9: three entries of the list `[ex_A, ex_B, ex_C]`. -/
theorem less_strict_weak_order_witness :
    less_by_fraction_and_type [ex_A, ex_B, ex_C] ⟨0, 0⟩ ⟨1, 0⟩ = true
      ∧ less_by_fraction_and_type [ex_A, ex_B, ex_C] ⟨1, 0⟩ ⟨2, 0⟩ = true
      ∧ less_by_fraction_and_type [ex_A, ex_B, ex_C] ⟨0, 0⟩ ⟨2, 0⟩ = true :=
  ⟨by decide, by decide,
    (less_strict_weak_order [ex_A, ex_B, ex_C] ⟨0, 0⟩ ⟨1, 0⟩ ⟨2, 0⟩
      ⟨by decide, by decide⟩ ⟨by decide, by decide⟩ ⟨by decide, by decide⟩).1
      (by decide) (by decide)⟩

end

/-! ## The claims on the flags of one turn -/

section
variable {F : Type} [LinearOrder F]

theorem any_discard_imp_any_index (E : List (Nat × Bool)) (i : Nat)
    (h : E.any (fun e => decide (e.1 = i) && e.2) = true) :
    E.any (fun e => decide (e.1 = i)) = true :=
  (any_index_iff E i).2 ⟨true, (any_discard_iff E i).1 h⟩

theorem flag_result_perm {E E' : List (Nat × Bool)} (hp : E.Perm E') (i : Nat)
    (t : turn_info F) : flag_result E i t = flag_result E' i t := by
  have h1 : E.any (fun e => decide (e.1 = i)) = E'.any (fun e => decide (e.1 = i)) := by
    rw [Bool.eq_iff_iff, any_index_iff, any_index_iff]
    simp only [hp.mem_iff]
  have h2 : E.any (fun e => decide (e.1 = i) && e.2)
      = E'.any (fun e => decide (e.1 = i) && e.2) := by
    rw [Bool.eq_iff_iff, any_discard_iff, any_discard_iff, hp.mem_iff]
  simp only [flag_result, h1, h2]

/-- The order in which flag updates are written does not show in the result. -/
theorem apply_events_perm (ts : List (turn_info F)) {E E' : List (Nat × Bool)}
    (hp : E.Perm E') : apply_events ts E = apply_events ts E' := by
  apply List.ext_getElem?
  intro i
  rw [apply_events_get, apply_events_get]
  cases ts[i]? with
  | none => rfl
  | some t => simp only [Option.map_some', flag_result_perm hp i t]

/-- C13. Characterisation of the `colocated` flag: after `handle_colocations` a
turn is colocated exactly if it was on input, or it is neither both-union nor
both-continue and a both-union turn has an operation on the segment of one of
its operations with the same fraction; both-union turns with other fractions
only do not flag it. -/
theorem colocated_characterisation (ts : List (turn_info F)) (i : Nat) (t : turn_info F)
    (hi : ts[i]? = some t) :
    (((handle_colocations ts)[i]?).map turn_info.colocated = some true ↔
        t.colocated = true
          ∨ (t.both operation_type.operation_union = false
            ∧ t.both operation_type.operation_continue = false
            ∧ ∃ u ∈ ts, u.both operation_type.operation_union = true
              ∧ ∃ j k, j < 2 ∧ k < 2
                ∧ (u.operations j).seg_id = (t.operations k).seg_id
                ∧ (u.operations j).fraction = (t.operations k).fraction))
      ∧ (t.colocated = false →
          (∀ u ∈ ts, u.both operation_type.operation_union = true →
            ∀ j k, j < 2 → k < 2 → (u.operations j).seg_id = (t.operations k).seg_id →
              (u.operations j).fraction ≠ (t.operations k).fraction) →
          ((handle_colocations ts)[i]?).map turn_info.colocated = some false) := by
  have key := colocated_event_iff ts i t hi
  rw [colocated_after ts i t hi]
  constructor
  · simp only [Option.some.injEq, Bool.or_eq_true, key]
    rfl
  · intro hc hdiff
    have hno : (all_events ts).any (fun e => decide (e.1 = i)) = false := by
      cases h : (all_events ts).any (fun e => decide (e.1 = i)) with
      | false => rfl
      | true =>
        exfalso
        obtain ⟨_, _, u, hu, huu, j, k, hj, hk, hseg, hfr⟩ := key.1 h
        exact hdiff u hu huu j k hj hk hseg hfr
    rw [hc, hno]
    rfl

/-- Witness of C13: `ex_B` next to the both-union turn `ex_A` at its location. -/
theorem colocated_characterisation_witness :
    ((handle_colocations [ex_A, ex_B])[1]?).map turn_info.colocated = some true :=
  (colocated_characterisation [ex_A, ex_B] 1 ex_B rfl).1.2
    (Or.inr ⟨by decide, by decide, ex_A, by simp, by decide, 0, 0, by decide, by decide,
      by decide, by decide⟩)

/-- C15. Necessary condition for discarding: a turn whose `discarded` flag is
false on input and true after `handle_colocations` is neither both-union nor
both-continue, and a both-union turn shares a location with it such that the
paired operation of that turn lies on ring `-1`, its own paired operation on a
ring `>= 0`, both of the same part; so its two operations do not both lie on
exterior rings. -/
theorem discarded_necessary (ts : List (turn_info F)) (i : Nat) (t : turn_info F)
    (hi : ts[i]? = some t) (hin : t.discarded = false)
    (hout : ((handle_colocations ts)[i]?).map turn_info.discarded = some true) :
    t.both operation_type.operation_union = false
      ∧ t.both operation_type.operation_continue = false
      ∧ (∃ u ∈ ts, u.both operation_type.operation_union = true
        ∧ ∃ j k, j < 2 ∧ k < 2
          ∧ (u.operations j).seg_id = (t.operations k).seg_id
          ∧ (u.operations j).fraction = (t.operations k).fraction
          ∧ (u.operations (1 - j)).seg_id.ring_index = -1
          ∧ (t.operations (1 - k)).seg_id.ring_index ≥ 0
          ∧ (u.operations (1 - j)).seg_id.multi_index
            = (t.operations (1 - k)).seg_id.multi_index)
      ∧ ¬ ((t.operations 0).seg_id.ring_index = -1
        ∧ (t.operations 1).seg_id.ring_index = -1) := by
  rw [discarded_after ts i t hi, hin] at hout
  simp only [Bool.false_or, Option.some.injEq] at hout
  obtain ⟨hnu, hnc, u, hu, huu, j, k, ⟨hj, hk, hseg, hfr⟩, hd⟩ :=
    discarded_event_sound ts i t hi hout
  simp only [discard_test, Bool.and_eq_true, decide_eq_true_eq] at hd
  obtain ⟨⟨hm, hr⟩, hr'⟩ := hd
  refine ⟨hnu, hnc, ⟨u, hu, huu, j, k, hj, hk, hseg, hfr, hr, hr', hm⟩, ?_⟩
  rintro ⟨h0, h1⟩
  interval_cases k <;>
    simp only [turn_info.operations, Nat.sub_zero, Nat.sub_self, if_true, one_ne_zero,
      if_false] at hr' h0 h1 <;> omega

/-- Witness of C15: `ex_B` is discarded next to `ex_A`. -/
theorem discarded_necessary_witness :
    ex_B.both operation_type.operation_union = false
      ∧ ex_B.both operation_type.operation_continue = false
      ∧ (∃ u ∈ [ex_A, ex_B], u.both operation_type.operation_union = true
        ∧ ∃ j k, j < 2 ∧ k < 2
          ∧ (u.operations j).seg_id = (ex_B.operations k).seg_id
          ∧ (u.operations j).fraction = (ex_B.operations k).fraction
          ∧ (u.operations (1 - j)).seg_id.ring_index = -1
          ∧ (ex_B.operations (1 - k)).seg_id.ring_index ≥ 0
          ∧ (u.operations (1 - j)).seg_id.multi_index
            = (ex_B.operations (1 - k)).seg_id.multi_index)
      ∧ ¬ ((ex_B.operations 0).seg_id.ring_index = -1
        ∧ (ex_B.operations 1).seg_id.ring_index = -1) :=
  discarded_necessary [ex_A, ex_B] 1 ex_B rfl (by decide) (by decide)

/-- C16. Discarded implies colocated: a turn whose `discarded` flag is false on
input and true after `handle_colocations` is colocated after it. -/
theorem discarded_implies_colocated (ts : List (turn_info F)) (i : Nat) (t : turn_info F)
    (hi : ts[i]? = some t) (hin : t.discarded = false)
    (hout : ((handle_colocations ts)[i]?).map turn_info.discarded = some true) :
    ((handle_colocations ts)[i]?).map turn_info.colocated = some true := by
  rw [discarded_after ts i t hi, hin] at hout
  simp only [Bool.false_or, Option.some.injEq] at hout
  rw [colocated_after ts i t hi, any_discard_imp_any_index _ i hout, Bool.or_true]

/-- Witness of C16: `ex_B` is discarded next to `ex_A`, and colocated. -/
theorem discarded_implies_colocated_witness :
    ((handle_colocations [ex_A, ex_B])[1]?).map turn_info.colocated = some true :=
  discarded_implies_colocated [ex_A, ex_B] 1 ex_B rfl (by decide) (by decide)

/-- C17. The order of the vectors is irrelevant: sweeping the sorted vectors of
the map in any order gives the turn list that `handle_colocations` returns. -/
theorem bucket_order_irrelevant (ts : List (turn_info F)) (m : map_type)
    (hp : m.Perm (sort_map ts (fill_map 0 ts []))) :
    m.foldl (fun tp it => sweep_bucket tp it.2) ts = handle_colocations ts := by
  rw [sweep_map_eq ts m ts rfl, handle_colocations_apply]
  apply apply_events_perm
  exact List.Perm.flatMap_right _ hp

/-- Witness of C17: the vectors of `[ex_A, ex_B]` swept in reverse order. -/
theorem bucket_order_irrelevant_witness :
    (sort_map [ex_A, ex_B] (fill_map 0 [ex_A, ex_B] [])).reverse.foldl
        (fun tp it => sweep_bucket tp it.2) [ex_A, ex_B]
      = handle_colocations [ex_A, ex_B] :=
  bucket_order_irrelevant [ex_A, ex_B] _ (List.reverse_perm _)

/-- C18. The early return is a pure optimisation: `handle_colocations` returns
what the variant without the early return returns. -/
theorem fast_path_refinement (ts : List (turn_info F)) :
    handle_colocations ts = handle_colocations_without_fast_path ts := by
  rw [handle_colocations_apply, handle_colocations_without_fast_path,
    sweep_map_eq ts _ ts rfl]
  rfl

/-- C20. Flags are monotone: a flag that is true on input is true after
`handle_colocations`. -/
theorem flags_monotone (ts : List (turn_info F)) (i : Nat) (t : turn_info F)
    (hi : ts[i]? = some t) :
    (t.discarded = true →
        ((handle_colocations ts)[i]?).map turn_info.discarded = some true)
      ∧ (t.colocated = true →
        ((handle_colocations ts)[i]?).map turn_info.colocated = some true) := by
  constructor
  · intro h
    rw [discarded_after ts i t hi, h, Bool.true_or]
  · intro h
    rw [colocated_after ts i t hi, h, Bool.true_or]

/-- Witness of C20: a turn that enters with both flags set, at a location of
its own. -/
theorem flags_monotone_witness :
    ((handle_colocations [ex_A, { ex_D with discarded := true, colocated := true }])[1]?).map
        turn_info.discarded = some true
      ∧ ((handle_colocations [ex_A, { ex_D with discarded := true, colocated := true }])[1]?).map
        turn_info.colocated = some true :=
  ⟨(flags_monotone [ex_A, { ex_D with discarded := true, colocated := true }] 1 _ rfl).1 rfl,
    (flags_monotone [ex_A, { ex_D with discarded := true, colocated := true }] 1 _ rfl).2 rfl⟩

end

/-! ## The claim on the index builder -/

section
variable {F : Type} [LinearOrder F]

theorem map_push_back_forall (P : segment_identifier × List turn_operation_index → Prop)
    (m : map_type) (k : segment_identifier) (v : turn_operation_index)
    (hm : ∀ it ∈ m, P it) (happ : ∀ it ∈ m, P (it.1, it.2 ++ [v])) (hnew : P (k, [v])) :
    ∀ it ∈ map_push_back m k v, P it := by
  intro it hit
  unfold map_push_back at hit
  split at hit
  · obtain ⟨it0, h0, rfl⟩ := List.mem_map.1 hit
    split
    · exact happ it0 h0
    · exact hm it0 h0
  · rcases List.mem_cons.1 ((map_insert_perm k [v] m).mem_iff.1 hit) with h | h
    · rw [h]; exact hnew
    · exact hm it h

theorem map_push_back_inv (m : map_type) (k : segment_identifier) (n o : Nat)
    (hm : ∀ it ∈ m, bucket_inv n it) : ∀ it ∈ map_push_back m k ⟨n, o⟩, bucket_inv n it := by
  apply map_push_back_forall (bucket_inv n) m k ⟨n, o⟩ hm
  · intro it hit
    obtain ⟨_, hp, hb⟩ := hm it hit
    refine ⟨by simp, ?_, ?_⟩
    · rw [List.pairwise_append]
      refine ⟨hp, List.pairwise_singleton _ _, ?_⟩
      intro a ha b hb'
      rw [List.mem_singleton] at hb'
      rw [hb']
      exact hb a ha
    · intro e he
      rcases List.mem_append.1 he with h | h
      · exact hb e h
      · rw [List.mem_singleton] at h
        rw [h]
  · refine ⟨by simp, List.pairwise_singleton _ _, ?_⟩
    intro e he
    rw [List.mem_singleton] at he
    rw [he]

theorem fill_map_inv (ts : List (turn_info F)) (n : Nat) (m : map_type)
    (hm : ∀ it ∈ m, bucket_inv n it) :
    ∀ it ∈ fill_map n ts m,
      it.2 ≠ [] ∧ it.2.Pairwise (fun a b => a.turn_index ≤ b.turn_index) := by
  induction ts generalizing n m with
  | nil =>
    intro it hit
    exact ⟨(hm it hit).1, (hm it hit).2.1⟩
  | cons t rest ih =>
    unfold fill_map
    apply ih (n + 1)
    intro it hit
    obtain ⟨h1, h2, h3⟩ :=
      map_push_back_inv _ (t.operations 1).seg_id n 1
        (map_push_back_inv m (t.operations 0).seg_id n 0 hm) it hit
    exact ⟨h1, h2, fun e he => Nat.le_succ_of_le (h3 e he)⟩

theorem length_map_entries (m : map_type) :
    (map_entries m).length = (m.map (fun it => it.2.length)).sum := by
  induction m with
  | nil => rfl
  | cons it rest ih =>
    rw [map_entries_cons, List.length_append, List.length_map, ih]
    rfl

theorem length_pushed_entries (ts : List (turn_info F)) (index : Nat) :
    (pushed_entries index ts).length = 2 * ts.length := by
  induction ts generalizing index with
  | nil => rfl
  | cons t rest ih =>
    simp only [pushed_entries, List.length_cons, ih (index + 1)]
    omega

/-- C11. Index builder coverage: the map built by the first loop has one vector
per key; each pair `(i, k)` with `i` a turn index and `k` a slot is once in the
vector keyed by the segment of that operation and in no other vector; the sizes
of the vectors sum to twice the number of turns; no vector is empty; and each
vector lists its entries in non-decreasing turn index. -/
theorem index_builder_coverage (ts : List (turn_info F)) :
    ((fill_map 0 ts []).map Prod.fst).Nodup
      ∧ (∀ i k t, ts[i]? = some t → k < 2 →
          ∃ it ∈ fill_map 0 ts [], it.1 = (t.operations k).seg_id
            ∧ it.2.count ⟨i, k⟩ = 1
            ∧ ∀ it' ∈ fill_map 0 ts [], (⟨i, k⟩ : turn_operation_index) ∈ it'.2 → it' = it)
      ∧ ((fill_map 0 ts []).map (fun it => it.2.length)).sum = 2 * ts.length
      ∧ (∀ it ∈ fill_map 0 ts [], it.2 ≠ [])
      ∧ (∀ it ∈ fill_map 0 ts [],
          it.2.Pairwise (fun a b => a.turn_index ≤ b.turn_index)) := by
  have hinv := fill_map_inv ts 0 [] (by simp)
  refine ⟨fill_map_keys ts, ?_, ?_, fun it hit => (hinv it hit).1,
    fun it hit => (hinv it hit).2⟩
  · intro i k t hi hk
    obtain ⟨it, hit, hkey, hmem⟩ :=
      bucket_of_entry ts (s := (t.operations k).seg_id) (e := ⟨i, k⟩) ⟨t, hi, hk, rfl⟩
    refine ⟨it, hit, hkey, List.count_eq_one_of_mem (bucket_nodup ts hit) hmem, ?_⟩
    intro it' hit' hmem'
    obtain ⟨t', hi', _, hseg'⟩ := bucket_entry_on ts hit' hmem'
    have hi'' : ts[i]? = some t' := hi'
    rw [hi] at hi''
    cases hi''
    exact bucket_unique ts hit' hit (hseg'.symm.trans hkey.symm)
  · rw [← length_map_entries, (fill_map_entries ts).length_eq, length_pushed_entries]

/-- Witness of C11: slot 0 of turn 1 of `[ex_A, ex_B]` is in the vector of the
shared segment. -/
theorem index_builder_coverage_witness :
    ∃ it ∈ fill_map 0 [ex_A, ex_B] [], it.1 = (ex_B.operations 0).seg_id
      ∧ it.2.count ⟨1, 0⟩ = 1
      ∧ ∀ it' ∈ fill_map 0 [ex_A, ex_B] [],
          (⟨1, 0⟩ : turn_operation_index) ∈ it'.2 → it' = it :=
  (index_builder_coverage [ex_A, ex_B]).2.1 1 0 ex_B rfl (by decide)

end

/-! ## The claim on the sorted vectors -/

section
variable {F : Type} [LinearOrder F]

theorem order_of_less {ts : List (turn_info F)} {a b : turn_operation_index}
    (h : less_by_fraction_and_type ts b a = false) (ta tb : turn_info F)
    (hta : ts[a.turn_index]? = some ta) (htb : ts[b.turn_index]? = some tb) :
    (ta.operations a.op_index).fraction ≤ (tb.operations b.op_index).fraction
      ∧ ((ta.operations a.op_index).fraction = (tb.operations b.op_index).fraction →
        (tb.both operation_type.operation_union = true →
            ta.both operation_type.operation_union = true)
          ∧ (ta.both operation_type.operation_union = tb.both operation_type.operation_union →
            a.turn_index ≤ b.turn_index)) := by
  have hr := (less_eq_false_iff_rank htb hta).1 h
  simp only [sort_rank, Prod.Lex.le_iff, type_code] at hr
  rcases hr with hr | ⟨hr1, hr2⟩
  · exact ⟨le_of_lt hr, fun heq => absurd heq (ne_of_lt hr)⟩
  · refine ⟨le_of_eq hr1, fun _ => ?_⟩
    rcases hr2 with hr2 | ⟨hr2, hr3⟩
    · have hau : ta.both operation_type.operation_union = true := by
        by_cases hau : ta.both operation_type.operation_union = true
        · exact hau
        · by_cases hbu : tb.both operation_type.operation_union = true <;>
            simp [hau, hbu] at hr2
      have hbu : tb.both operation_type.operation_union = false := by
        cases hbu : tb.both operation_type.operation_union with
        | false => rfl
        | true => simp [hbu] at hr2
      refine ⟨fun _ => hau, fun heq => ?_⟩
      rw [hau, hbu] at heq
      cases heq
    · refine ⟨fun hbu => ?_, fun _ => hr3⟩
      by_cases hau : ta.both operation_type.operation_union = true
      · exact hau
      · simp [hau, hbu] at hr2

/-- C14. Sorted vector order: a vector of the map after sorting is a permutation
of the vector before sorting; its fractions are non-decreasing; at equal
fractions no entry of a both-union turn comes after an entry of another turn,
and entries of equal rank come in non-decreasing turn index; so the first entry
with a given fraction belongs to a both-union turn whenever an entry with that
fraction does. -/
theorem sorted_bucket_order (ts : List (turn_info F))
    (it : segment_identifier × List turn_operation_index) (hit : it ∈ fill_map 0 ts []) :
    (it.1, std_sort (less_by_fraction_and_type ts) it.2) ∈ sort_map ts (fill_map 0 ts [])
      ∧ (std_sort (less_by_fraction_and_type ts) it.2).Perm it.2
      ∧ (std_sort (less_by_fraction_and_type ts) it.2).Pairwise
          (fun a b => ∀ ta tb, ts[a.turn_index]? = some ta → ts[b.turn_index]? = some tb →
            (ta.operations a.op_index).fraction ≤ (tb.operations b.op_index).fraction
              ∧ ((ta.operations a.op_index).fraction = (tb.operations b.op_index).fraction →
                (tb.both operation_type.operation_union = true →
                    ta.both operation_type.operation_union = true)
                  ∧ (ta.both operation_type.operation_union
                      = tb.both operation_type.operation_union →
                    a.turn_index ≤ b.turn_index)))
      ∧ (∀ l1 a l2 ta, std_sort (less_by_fraction_and_type ts) it.2 = l1 ++ a :: l2 →
          ts[a.turn_index]? = some ta →
          (∀ c ∈ l1, ∀ tc, ts[c.turn_index]? = some tc →
            (tc.operations c.op_index).fraction ≠ (ta.operations a.op_index).fraction) →
          ∀ b ∈ std_sort (less_by_fraction_and_type ts) it.2, ∀ tb,
            ts[b.turn_index]? = some tb →
            (tb.operations b.op_index).fraction = (ta.operations a.op_index).fraction →
            tb.both operation_type.operation_union = true →
            ta.both operation_type.operation_union = true) := by
  have hvalid : ∀ z ∈ it.2, ∃ t, ts[z.turn_index]? = some t := by
    intro z hz
    obtain ⟨t, ht, _⟩ := bucket_entry_on ts hit hz
    exact ⟨t, ht⟩
  have hpair : (std_sort (less_by_fraction_and_type ts) it.2).Pairwise
      (fun a b => ∀ ta tb, ts[a.turn_index]? = some ta → ts[b.turn_index]? = some tb →
        (ta.operations a.op_index).fraction ≤ (tb.operations b.op_index).fraction
          ∧ ((ta.operations a.op_index).fraction = (tb.operations b.op_index).fraction →
            (tb.both operation_type.operation_union = true →
                ta.both operation_type.operation_union = true)
              ∧ (ta.both operation_type.operation_union
                  = tb.both operation_type.operation_union →
                a.turn_index ≤ b.turn_index))) :=
    (bucket_sorted ts it.2 hvalid).imp (fun h => order_of_less h)
  refine ⟨(mem_sort_map ts _ _).2 ⟨it, hit, rfl⟩, std_sort_perm _ _, hpair, ?_⟩
  intro l1 a l2 ta hsplit hta hfirst b hb tb htb hfr hbu
  rw [hsplit] at hb hpair
  rcases List.mem_append.1 hb with h | h
  · exact absurd hfr (hfirst b h tb htb)
  · rcases List.mem_cons.1 h with h' | h'
    · subst h'
      rw [hta] at htb
      cases htb
      exact hbu
    · have hp2 := (List.pairwise_append.1 hpair).2.1
      rw [List.pairwise_cons] at hp2
      exact ((hp2.1 b h' ta tb hta htb).2 hfr.symm).1 hbu

/-- Witness of C14: the vector of the shared segment of `[ex_B, ex_A]`, which
the sort turns round. -/
theorem sorted_bucket_order_witness :
    std_sort (less_by_fraction_and_type [ex_B, ex_A]) [⟨0, 0⟩, ⟨1, 0⟩] = [⟨1, 0⟩, ⟨0, 0⟩]
      ∧ (std_sort (less_by_fraction_and_type [ex_B, ex_A]) [⟨0, 0⟩, ⟨1, 0⟩]).Perm
        [⟨0, 0⟩, ⟨1, 0⟩] :=
  ⟨by decide,
    (sorted_bucket_order [ex_B, ex_A] (ex_shared, [⟨0, 0⟩, ⟨1, 0⟩]) (by decide)).2.1⟩

end

/-! ## The claim on index safety -/

section
variable {F : Type} [LinearOrder F]

theorem operations_at_slot (t : turn_info F) (k : Nat) (hk : k < 2) :
    t.operations_at (k : Int) = some (t.operations k)
      ∧ t.operations_at (1 - (k : Int)) = some (t.operations (1 - k)) := by
  interval_cases k <;> simp [turn_info.operations_at, turn_info.operations]

theorem less_checked_eq {ts : List (turn_info F)} {a b : turn_operation_index}
    (ha : a.turn_index < ts.length ∧ a.op_index < 2)
    (hb : b.turn_index < ts.length ∧ b.op_index < 2) :
    less_checked ts a b = some (less_by_fraction_and_type ts a b) := by
  have hta : ts[a.turn_index]? = some (ts.get ⟨a.turn_index, ha.1⟩) :=
    List.getElem?_eq_getElem ha.1
  have htb : ts[b.turn_index]? = some (ts.get ⟨b.turn_index, hb.1⟩) :=
    List.getElem?_eq_getElem hb.1
  simp only [less_checked, less_by_fraction_and_type, hta, htb,
    (operations_at_slot _ a.op_index ha.2).1, (operations_at_slot _ b.op_index hb.2).1]
  split_ifs <;> rfl

theorem sort_insert_checked_eq {α : Type} (lessc : α → α → Option Bool)
    (less : α → α → Bool) (P : α → Prop)
    (hP : ∀ x y, P x → P y → lessc x y = some (less x y)) (a : α) (l : List α)
    (hall : ∀ x ∈ a :: l, P x) :
    sort_insert_checked lessc a l = some (sort_insert less a l) := by
  induction l with
  | nil => rfl
  | cons b l ih =>
    have hPa : P a := hall a (List.mem_cons_self _ _)
    have hPb : P b := hall b (List.mem_cons_of_mem _ (List.mem_cons_self _ _))
    have hrest : ∀ x ∈ a :: l, P x := by
      intro x hx
      rcases List.mem_cons.1 hx with h | h
      · rw [h]; exact hPa
      · exact hall x (List.mem_cons_of_mem _ (List.mem_cons_of_mem _ h))
    simp only [sort_insert_checked, sort_insert, hP b a hPb hPa]
    cases less b a with
    | true => simp only [ih hrest, if_true]
    | false => simp

theorem std_sort_checked_eq {α : Type} (lessc : α → α → Option Bool)
    (less : α → α → Bool) (P : α → Prop)
    (hP : ∀ x y, P x → P y → lessc x y = some (less x y)) (l : List α)
    (hall : ∀ x ∈ l, P x) : std_sort_checked lessc l = some (std_sort less l) := by
  induction l with
  | nil => rfl
  | cons a l ih =>
    have hl : ∀ x ∈ l, P x := fun x hx => hall x (List.mem_cons_of_mem _ hx)
    simp only [std_sort_checked, std_sort, ih hl]
    apply sort_insert_checked_eq lessc less P hP
    intro x hx
    rcases List.mem_cons.1 hx with h | h
    · rw [h]; exact hall a (List.mem_cons_self _ _)
    · exact hl x ((std_sort_perm less l).mem_iff.1 h)

theorem sort_map_checked_eq (ts : List (turn_info F)) (m : map_type)
    (hall : ∀ it ∈ m, ∀ e ∈ it.2, e.turn_index < ts.length ∧ e.op_index < 2) :
    sort_map_checked ts m = some (sort_map ts m) := by
  induction m with
  | nil => rfl
  | cons it rest ih =>
    have h1 := std_sort_checked_eq (less_checked ts) (less_by_fraction_and_type ts)
      (fun e => e.turn_index < ts.length ∧ e.op_index < 2)
      (fun x y hx hy => less_checked_eq hx hy) it.2 (hall it (List.mem_cons_self _ _))
    have h2 := ih (fun it' hit' => hall it' (List.mem_cons_of_mem _ hit'))
    simp only [sort_map_checked, h1, h2]
    rfl

theorem sweep_step_checked_eq (tp : List (turn_info F)) (c : cluster F)
    (toi : turn_operation_index) (hv : toi.turn_index < tp.length ∧ toi.op_index < 2) :
    sweep_step_checked (tp, c) toi = some (sweep_step (tp, c) toi) := by
  have ht : tp[toi.turn_index]? = some (tp.get ⟨toi.turn_index, hv.1⟩) :=
    List.getElem?_eq_getElem hv.1
  simp only [sweep_step_checked, sweep_step, ht,
    (operations_at_slot _ toi.op_index hv.2).1, (operations_at_slot _ toi.op_index hv.2).2]
  split
  · split <;> rfl
  · rfl

theorem length_sweep_step (tp : List (turn_info F)) (c : cluster F)
    (toi : turn_operation_index) : (sweep_step (tp, c) toi).1.length = tp.length := by
  cases ht : tp[toi.turn_index]? with
  | none => rw [sweep_step_none c ht]
  | some turn =>
    rw [sweep_step_some c ht]
    split
    · split
      · simp
      · rfl
    · rfl

theorem sweep_checked_eq (l : List turn_operation_index)
    (st : List (turn_info F) × cluster F)
    (hall : ∀ e ∈ l, e.turn_index < st.1.length ∧ e.op_index < 2) :
    sweep_checked st l = some (l.foldl sweep_step st) := by
  induction l generalizing st with
  | nil => rfl
  | cons toi rest ih =>
    obtain ⟨tp, c⟩ := st
    simp only [sweep_checked, List.foldl_cons,
      sweep_step_checked_eq tp c toi (hall toi (List.mem_cons_self _ _))]
    apply ih
    intro e he
    rw [length_sweep_step]
    exact hall e (List.mem_cons_of_mem _ he)

theorem sweep_bucket_checked_eq (tp : List (turn_info F)) (l : List turn_operation_index)
    (hall : ∀ e ∈ l, e.turn_index < tp.length ∧ e.op_index < 2) :
    sweep_bucket_checked tp l = some (sweep_bucket tp l) := by
  match l with
  | [] => rfl
  | [_] => rfl
  | vit :: w :: rest =>
    have hv := hall vit (List.mem_cons_self _ _)
    have ht : tp[vit.turn_index]? = some (tp.get ⟨vit.turn_index, hv.1⟩) :=
      List.getElem?_eq_getElem hv.1
    have hrest : ∀ e ∈ w :: rest, e.turn_index < tp.length ∧ e.op_index < 2 :=
      fun e he => hall e (List.mem_cons_of_mem _ he)
    simp only [sweep_bucket_checked, sweep_bucket, ht,
      (operations_at_slot _ vit.op_index hv.2).1, (operations_at_slot _ vit.op_index hv.2).2]
    rw [sweep_checked_eq (w :: rest) _ hrest]

theorem length_sweep_bucket (tp : List (turn_info F)) (l : List turn_operation_index) :
    (sweep_bucket tp l).length = tp.length := by
  have := congrArg List.length (apply_events_key (bucket_events tp l) tp)
  rw [← sweep_bucket_eq] at this
  simpa using this

theorem sweep_map_checked_eq (m : map_type) (tp : List (turn_info F))
    (hall : ∀ it ∈ m, ∀ e ∈ it.2, e.turn_index < tp.length ∧ e.op_index < 2) :
    sweep_map_checked tp m = some (m.foldl (fun tp it => sweep_bucket tp it.2) tp) := by
  induction m generalizing tp with
  | nil => rfl
  | cons it rest ih =>
    simp only [sweep_map_checked, List.foldl_cons,
      sweep_bucket_checked_eq tp it.2 (hall it (List.mem_cons_self _ _))]
    apply ih
    intro it' hit' e he
    rw [length_sweep_bucket]
    exact hall it' (List.mem_cons_of_mem _ hit') e he

/-- The checked sweep fails on a turn index outside the turn list and on a slot
other than 0 and 1. -/
theorem sweep_bucket_checked_fails :
    sweep_bucket_checked [ex_A, ex_B] [⟨0, 0⟩, ⟨2, 0⟩] = none
      ∧ sweep_bucket_checked [ex_A, ex_B] [⟨0, 0⟩, ⟨1, 2⟩] = none := by
  decide

/-- Every entry of the map built by the first loop is a valid operation index. -/
theorem map_entries_valid (ts : List (turn_info F)) :
    ∀ it ∈ fill_map 0 ts [], ∀ e ∈ it.2, e.turn_index < ts.length ∧ e.op_index < 2 := by
  intro it hit e he
  obtain ⟨t, ht, ho, _⟩ := bucket_entry_on ts hit he
  exact ⟨(List.getElem?_eq_some.1 ht).1, ho⟩

/-- C19. Index safety: every operation index stored in the map has its turn
index in range and its slot 0 or 1, and `handle_colocations` with every element
access checked never fails: it returns what `handle_colocations` returns. -/
theorem index_safety (ts : List (turn_info F)) :
    (∀ it ∈ fill_map 0 ts [], ∀ e ∈ it.2, e.turn_index < ts.length ∧ e.op_index < 2)
      ∧ handle_colocations_checked ts = some (handle_colocations ts) := by
  refine ⟨map_entries_valid ts, ?_⟩
  cases h : has_colocations (fill_map 0 ts []) with
  | false => simp [handle_colocations_checked, handle_colocations, h]
  | true =>
    simp only [handle_colocations_checked, handle_colocations, h, Bool.not_true,
      Bool.false_eq_true, if_false, sort_map_checked_eq ts _ (map_entries_valid ts)]
    apply sweep_map_checked_eq
    intro it hit e he
    obtain ⟨it0, hit0, rfl⟩ := (mem_sort_map ts _ it).1 hit
    exact map_entries_valid ts it0 hit0 e ((std_sort_perm _ _).mem_iff.1 he)

end

end overlay
